import Mathlib

/-!
# Verification of the UVA 101 "Blocks Problem" solver

Shallow embedding of the Rust sources
`101 - The Blocks Problem/rust/src/command.rs` (command parser) and
`101 - The Blocks Problem/rust/src/blocks.rs` (blocks-world state machine),
together with the dispatch loop of `robot.rs`, and proofs of the
spec claims about them.

Machine-integer conventions: Rust `u32` values are modelled as `Nat`
(with explicit `% 2^32` wherever a cast can wrap), `i32` as `Int`,
and the casts `u32 as i32`, `i32 as u32`, `i32 as usize`, `usize as i32`
as the explicit functions `u32AsI32`, `intAsU32`, `intToUsize`, below.
`Vec<T>` is a `List` with the bottom of a stack at the head, so Rust
`push` is `++ [x]` and `pop` takes `getLast?` and `dropLast`.
`pop().unwrap()` on a vector that the surrounding loop bound guarantees
nonempty is modelled with the default value `0` for the (unreachable)
empty case; an out-of-bounds `Vec` index, which panics in Rust and is
likewise unreachable in the guarded paths proved about here, is
modelled by `List.getD`/`List.set` (default / no-op).
-/

/-! ## Machine integer casts -/

/-- Rust `x as i32` for a `u32` value `x`: two's-complement reinterpretation. -/
def u32AsI32 (x : Nat) : Int :=
  if x % 2 ^ 32 < 2 ^ 31 then ((x % 2 ^ 32 : Nat) : Int)
  else ((x % 2 ^ 32 : Nat) : Int) - 2 ^ 32

/-- Rust `x as u32` for an `i32` value `x`: two's-complement reinterpretation. -/
def intAsU32 (x : Int) : Nat := (x % 2 ^ 32).toNat

/-- Rust `x as usize` for an `i32` value `x`: sign-extension to 64 bits. -/
def intToUsize (x : Int) : Nat := (x % 2 ^ 64).toNat

/-! ## `command.rs`: `CommandState` and `Command` -/

/-- The command state of the attempted command (source enum `CommandState`). -/
inductive CommandState where
  | Init
  | Move
  | Pile
  | Onto
  | Over
  | Quit
  | Print
  | Error
  | Do
  deriving DecidableEq, Repr

/-- The `Command` struct of `command.rs`. Fields keep the source names
(`from` needs quoting because it is a Lean keyword). -/
structure Command where
  error_msg : String
  state : CommandState
  «from» : CommandState
  «to» : CommandState
  a : Int
  b : Int
  deriving DecidableEq, Repr

/-- Rust `str::trim`: drop leading and trailing whitespace. Text is
handled as `List Char` throughout the parser model so that every step is
structurally recursive (Lean's `String.trim` and friends go through
`Substring` byte positions). -/
def trimChars (l : List Char) : List Char :=
  ((l.dropWhile Char.isWhitespace).reverse.dropWhile Char.isWhitespace).reverse

/-- Rust `str::to_lowercase`, on the ASCII range. -/
def toLowerChars (l : List Char) : List Char :=
  l.map Char.toLower

/-- The accumulator loop behind `splitWhitespace`: `cur` holds the
(reversed) token being read. -/
def splitWhitespaceAux : List Char → List Char → List (List Char)
  | [], cur => if cur = [] then [] else [cur.reverse]
  | c :: rest, cur =>
    if c.isWhitespace then
      if cur = [] then splitWhitespaceAux rest []
      else cur.reverse :: splitWhitespaceAux rest []
    else splitWhitespaceAux rest (c :: cur)

/-- Rust `str::split_whitespace`: the maximal whitespace-free tokens, in
order, with no empty tokens. -/
def splitWhitespace (l : List Char) : List (List Char) :=
  splitWhitespaceAux l []

/-- Rust `str::parse::<u32>`: an optional leading `+`, then one or more
ASCII digits, value below `2^32`. -/
def parseU32 (t0 : List Char) : Option Nat :=
  let t := match t0 with
    | '+' :: rest => rest
    | _ => t0
  if t ≠ [] ∧ t.all (fun c => c.isDigit) then
    let v := t.foldl (fun acc c => acc * 10 + (c.toNat - 48)) 0
    if v < 2 ^ 32 then some v else none
  else none

/-- `Command::parse` from `command.rs`: trim and lower-case the input,
recognise `quit`/`q`/`print`/`p`, otherwise demand exactly four tokens
`verb a prep b` checked in the source's order, mapping every failure to a
`Command` in the `Error` state with the source's message. -/
def Command.parse (input : String) : Command :=
  let inp := toLowerChars (trimChars input.data)
  if inp = "quit".data ∨ inp = "q".data then
    { error_msg := "", state := CommandState.Quit, «from» := CommandState.Init,
      «to» := CommandState.Init, a := -1, b := -1 }
  else if inp = "print".data ∨ inp = "p".data then
    { error_msg := "", state := CommandState.Print, «from» := CommandState.Init,
      «to» := CommandState.Init, a := -1, b := -1 }
  else
    let parts := splitWhitespace inp
    if parts.length ≠ 4 then
      { error_msg := "Error! Expected 4 input parameters, got " ++ toString parts.length,
        state := CommandState.Error, «from» := CommandState.Init,
        «to» := CommandState.Init, a := -1, b := -1 }
    else if parts.getD 0 [] ≠ "move".data ∧ parts.getD 0 [] ≠ "pile".data then
      { error_msg := "Error! `" ++ String.mk (parts.getD 0 []) ++ "` is not a valid command.",
        state := CommandState.Error, «from» := CommandState.Init,
        «to» := CommandState.Init, a := -1, b := -1 }
    else if parts.getD 2 [] ≠ "over".data ∧ parts.getD 2 [] ≠ "onto".data then
      { error_msg := "Error! `" ++ String.mk (parts.getD 2 []) ++ "` is not a valid command.",
        state := CommandState.Error, «from» := CommandState.Init,
        «to» := CommandState.Init, a := -1, b := -1 }
    else
      match parseU32 (parts.getD 1 []) with
      | none =>
        { error_msg := "Error! `" ++ String.mk (parts.getD 1 []) ++ "` is not a valid positive integer.",
          state := CommandState.Error, «from» := CommandState.Init,
          «to» := CommandState.Init, a := -1, b := -1 }
      | some na =>
        match parseU32 (parts.getD 3 []) with
        | none =>
          { error_msg := "Error! `" ++ String.mk (parts.getD 3 []) ++ "` is not a valid positive integer.",
            state := CommandState.Error, «from» := CommandState.Init,
            «to» := CommandState.Init, a := (na : Int), b := -1 }
        | some nb =>
          { error_msg := "", state := CommandState.Do,
            «from» :=
              if parts.getD 0 [] = "move".data then CommandState.Move
              else if parts.getD 0 [] = "pile".data then CommandState.Pile
              else CommandState.Init,
            «to» :=
              if parts.getD 2 [] = "over".data then CommandState.Over
              else if parts.getD 2 [] = "onto".data then CommandState.Onto
              else CommandState.Init,
            a := (na : Int), b := (nb : Int) }

/-! ## `blocks.rs`: `BlockState` and `Blocks` -/

/-- The state of the `Blocks` struct during its processing (source enum
`BlockState`). -/
inductive BlockState where
  | Init
  | Move
  | Pile
  deriving DecidableEq, Repr

/-- The `Blocks` struct of `blocks.rs`: dispatch state, world (vec of
vecs of `u32`, bottom of each stack first), and the pending `a`/`b`
operands. -/
structure Blocks where
  state : BlockState
  world : List (List Nat)
  a : Option Nat
  b : Option Nat
  deriving DecidableEq, Repr

/-- `Blocks::new`: `n` singleton stacks `[0], [1], ..., [n-1]`; an error
for `n < 1`. -/
def Blocks.new (elements : Nat) : Except String Blocks :=
  if elements < 1 then
    Except.error "cannot initialize Blocks with less than 1 element"
  else
    Except.ok { state := BlockState.Init,
                world := (List.range elements).map (fun x => [x]),
                a := none, b := none }

/-- `Blocks::reset_state`: back to `Init` with both operands cleared. -/
def Blocks.reset_state (s : Blocks) : Blocks :=
  { s with state := BlockState.Init, a := none, b := none }

/-- `Blocks::get_a_and_b`: the stored operands as `i32`, `-1` for `None`. -/
def Blocks.get_a_and_b (s : Blocks) : Int × Int :=
  (match s.a with
   | some a => u32AsI32 a
   | none => -1,
   match s.b with
   | some b => u32AsI32 b
   | none => -1)

/-- `Blocks::same_stack`: some stack contains both `a as u32` and
`b as u32`. -/
def Blocks.same_stack (s : Blocks) : Bool :=
  let ab := s.get_a_and_b
  s.world.any (fun st => decide (intAsU32 ab.1 ∈ st) && decide (intAsU32 ab.2 ∈ st))

/-- `Blocks::parameters_invalid`: `a == b`, a negative operand, an operand
at or beyond the world length, or both operands in the same stack. -/
def Blocks.parameters_invalid (s : Blocks) : Bool :=
  let ab := s.get_a_and_b
  if ab.1 == ab.2 || ab.1 < 0 || ab.2 < 0 ||
     decide (s.world.length ≤ intToUsize ab.1) ||
     decide (s.world.length ≤ intToUsize ab.2) then
    true
  else
    s.same_stack

/-- The inner loop of `Blocks::where_is`: index of the first occurrence of
`x` in one stack. -/
def findIdxA (x : Nat) : List Nat → Option Nat
  | [] => none
  | y :: rest => if y = x then some 0 else (findIdxA x rest).map (· + 1)

/-- The outer loop of `Blocks::where_is`: scan the stacks in order,
returning the first hit as a pair of `i32` coordinates. -/
def findLoc : List (List Nat) → Nat → Nat → Int × Int
  | [], _, _ => (-1, -1)
  | st :: rest, x, i =>
    match findIdxA x st with
    | some j => (u32AsI32 i, u32AsI32 j)
    | none => findLoc rest x (i + 1)

/-- `Blocks::where_is`: coordinates `(stack, position)` of a block,
`(-1, -1)` when negative or absent. -/
def Blocks.where_is (s : Blocks) (block : Int) : Int × Int :=
  if block < 0 then (-1, -1)
  else findLoc s.world (intAsU32 block) 0

/-- The "return blocks to their own stacks" loop shared by the operations:
`m` times, pop the top of stack `i` and push the popped block `x` onto
stack `x`. -/
def returnBlocks (w : List (List Nat)) (i : Nat) : Nat → List (List Nat)
  | 0 => w
  | m + 1 =>
    let st := w.getD i []
    let x := st.getLast?.getD 0
    let w1 := w.set i st.dropLast
    let w2 := w1.set x (w1.getD x [] ++ [x])
    returnBlocks w2 i m

/-- The "pop off every block on top of `a`, including `a`" loop of the
pile operations: `m` pops, discarding the values. -/
def popN (l : List Nat) : Nat → List Nat
  | 0 => l
  | m + 1 => popN l.dropLast m

/-- `Blocks::move_a_onto_b`: validate; return the blocks above `a` to
their own stacks; pop `a`; return the blocks above `b` to their own
stacks; push `a` onto `b`'s stack. -/
def Blocks.move_a_onto_b (s : Blocks) : Blocks :=
  if s.parameters_invalid then s.reset_state
  else
    let ab := s.get_a_and_b
    let ij := s.where_is ab.1
    let kl := s.where_is ab.2
    let i := intToUsize ij.1
    let j := intToUsize ij.2
    let k := intToUsize kl.1
    let l := intToUsize kl.2
    let ralen := (s.world.getD i []).length - j
    let w1 := returnBlocks s.world i (ralen - 1)
    let block_a := (w1.getD i []).getLast?.getD 0
    let w2 := w1.set i (w1.getD i []).dropLast
    let rblen := (w2.getD k []).length - l
    let w3 := returnBlocks w2 k (rblen - 1)
    let w4 := w3.set k (w3.getD k [] ++ [block_a])
    { s with world := w4 }

/-- `Blocks::move_a_over_b`: validate; return the blocks above `a` to
their own stacks; pop `a`; push `a` on top of the stack containing `b`. -/
def Blocks.move_a_over_b (s : Blocks) : Blocks :=
  if s.parameters_invalid then s.reset_state
  else
    let ab := s.get_a_and_b
    let ij := s.where_is ab.1
    let kl := s.where_is ab.2
    let i := intToUsize ij.1
    let j := intToUsize ij.2
    let k := intToUsize kl.1
    let ralen := (s.world.getD i []).length - j
    let w1 := returnBlocks s.world i (ralen - 1)
    let block_a := (w1.getD i []).getLast?.getD 0
    let w2 := w1.set i (w1.getD i []).dropLast
    let w3 := w2.set k (w2.getD k [] ++ [block_a])
    { s with world := w3 }

/-- `Blocks::pile_a_onto_b`: validate; return the blocks above `b` to
their own stacks; move the pile from `a` upward, in order, onto `b`. -/
def Blocks.pile_a_onto_b (s : Blocks) : Blocks :=
  if s.parameters_invalid then s.reset_state
  else
    let ab := s.get_a_and_b
    let ij := s.where_is ab.1
    let kl := s.where_is ab.2
    let i := intToUsize ij.1
    let j := intToUsize ij.2
    let k := intToUsize kl.1
    let l := intToUsize kl.2
    let rblen := (s.world.getD k []).length - l
    let w1 := returnBlocks s.world k (rblen - 1)
    let right_a := (w1.getD i []).drop j
    let w2 := w1.set i (popN (w1.getD i []) right_a.length)
    let w3 := w2.set k (w2.getD k [] ++ right_a)
    { s with world := w3 }

/-- `Blocks::pile_a_over_b`: validate; move the pile from `a` upward, in
order, on top of the stack containing `b`. -/
def Blocks.pile_a_over_b (s : Blocks) : Blocks :=
  if s.parameters_invalid then s.reset_state
  else
    let ab := s.get_a_and_b
    let ij := s.where_is ab.1
    let kl := s.where_is ab.2
    let i := intToUsize ij.1
    let j := intToUsize ij.2
    let k := intToUsize kl.1
    let right_a := (s.world.getD i []).drop j
    let w1 := s.world.set i (popN (s.world.getD i []) right_a.length)
    let w2 := w1.set k (w1.getD k [] ++ right_a)
    { s with world := w2 }

/-- `Blocks::move_a`: from `Init`, record a pending move of `a`;
otherwise reset. -/
def Blocks.move_a (s : Blocks) (a : Nat) : Blocks :=
  match s.state with
  | BlockState.Init => { s with state := BlockState.Move, a := some a, b := none }
  | BlockState.Move => s.reset_state
  | BlockState.Pile => s.reset_state

/-- `Blocks::pile_a`: from `Init`, record a pending pile of `a`;
otherwise reset. -/
def Blocks.pile_a (s : Blocks) (a : Nat) : Blocks :=
  match s.state with
  | BlockState.Init => { s with state := BlockState.Pile, a := some a, b := none }
  | BlockState.Move => s.reset_state
  | BlockState.Pile => s.reset_state

/-- `Blocks::onto_b`: complete a pending move or pile as an `onto`
operation, then reset; from `Init` just reset. -/
def Blocks.onto_b (s : Blocks) (b : Nat) : Blocks :=
  match s.state with
  | BlockState.Init => s.reset_state
  | BlockState.Move => ({ s with b := some b }).move_a_onto_b.reset_state
  | BlockState.Pile => ({ s with b := some b }).pile_a_onto_b.reset_state

/-- `Blocks::over_b`: complete a pending move or pile as an `over`
operation, then reset; from `Init` just reset. -/
def Blocks.over_b (s : Blocks) (b : Nat) : Blocks :=
  match s.state with
  | BlockState.Init => s.reset_state
  | BlockState.Move => ({ s with b := some b }).move_a_over_b.reset_state
  | BlockState.Pile => ({ s with b := some b }).pile_a_over_b.reset_state

/-- `Blocks::print`: the dump, one line `"<index>: <b0> <b1> ..."` per
stack (a pure function of the state; the Rust method takes `&self`). -/
def Blocks.print (s : Blocks) : List String :=
  s.world.enum.map (fun p =>
    toString p.1 ++ ":" ++ String.join (p.2.map (fun x => " " ++ toString x)))

/-! ## `robot.rs`: construction and the command dispatch of `main_loop` -/

/-- `Robot::new`: a `Blocks` world of the requested size, with the
source's fallback world `[[0]]` when `Blocks::new` errors. -/
def Robot.new (num_blocks : Nat) : Blocks :=
  match Blocks.new num_blocks with
  | Except.ok blocks => blocks
  | Except.error _ =>
    { state := BlockState.Init, world := [[0]], a := none, b := none }

/-- One iteration of `Robot::main_loop`'s dispatch on a parsed command:
`Do` commands run the verb/preposition pair (casting the `i32` operands
to `u32` as the source does); `Print`, `Quit`, `Error` and all other
states leave the blocks unchanged. -/
def Robot.dispatch (s : Blocks) (c : Command) : Blocks :=
  match c.state with
  | CommandState.Do =>
    match c.«from», c.«to» with
    | CommandState.Move, CommandState.Over => (s.move_a (intAsU32 c.a)).over_b (intAsU32 c.b)
    | CommandState.Move, CommandState.Onto => (s.move_a (intAsU32 c.a)).onto_b (intAsU32 c.b)
    | CommandState.Pile, CommandState.Over => (s.pile_a (intAsU32 c.a)).over_b (intAsU32 c.b)
    | CommandState.Pile, CommandState.Onto => (s.pile_a (intAsU32 c.a)).onto_b (intAsU32 c.b)
    | _, _ => s
  | _ => s

/-- The states reachable from `Blocks::new n` by dispatching any sequence
of commands. -/
inductive Reach (n : Nat) : Blocks → Prop
  | init (s : Blocks) : Blocks.new n = Except.ok s → Reach n s
  | step (s : Blocks) (c : Command) : Reach n s → Reach n (Robot.dispatch s c)

/-! ## Cast lemmas -/

theorem u32AsI32_of_lt {x : Nat} (h : x < 2 ^ 31) : u32AsI32 x = (x : Int) := by
  unfold u32AsI32
  rw [Nat.mod_eq_of_lt (lt_trans h (by norm_num))]
  rw [if_pos h]

theorem u32AsI32_nonneg_iff {x : Nat} (h32 : x < 2 ^ 32) : 0 ≤ u32AsI32 x ↔ x < 2 ^ 31 := by
  unfold u32AsI32
  rw [Nat.mod_eq_of_lt h32]
  split <;> omega

theorem intAsU32_ofNat {x : Nat} (h : x < 2 ^ 32) : intAsU32 (x : Int) = x := by
  unfold intAsU32
  omega

theorem intAsU32_lt (x : Int) : intAsU32 x < 2 ^ 32 := by
  unfold intAsU32
  omega

theorem intAsU32_u32AsI32 {x : Nat} (h : x < 2 ^ 32) : intAsU32 (u32AsI32 x) = x := by
  unfold intAsU32 u32AsI32
  rw [Nat.mod_eq_of_lt h]
  split <;> omega

theorem intToUsize_ofNat {x : Nat} (h : x < 2 ^ 64) : intToUsize (x : Int) = x := by
  unfold intToUsize
  omega

/-! ## A small `getD`/`set` kit for worlds (`List (List Nat)`) -/

theorem getD_set_self (w : List (List Nat)) (i : Nat) (s : List Nat) (h : i < w.length) :
    (w.set i s).getD i [] = s := by
  induction w generalizing i with
  | nil => simp at h
  | cons hd tl ih =>
    cases i with
    | zero => rfl
    | succ t => exact ih t (by simpa using h)

theorem getD_set_ne (w : List (List Nat)) (i t : Nat) (s : List Nat) (h : t ≠ i) :
    (w.set i s).getD t [] = w.getD t [] := by
  induction w generalizing i t with
  | nil => simp
  | cons hd tl ih =>
    cases i with
    | zero =>
      cases t with
      | zero => exact absurd rfl h
      | succ u => rfl
    | succ v =>
      cases t with
      | zero => rfl
      | succ u => exact ih v u (by omega)

theorem getD_eq_of_lt (w : List (List Nat)) (i : Nat) (h : i < w.length) :
    ∃ st, w.getD i [] = st ∧ st ∈ w := by
  induction w generalizing i with
  | nil => simp at h
  | cons hd tl ih =>
    cases i with
    | zero => exact ⟨hd, rfl, List.mem_cons_self _ _⟩
    | succ t =>
      obtain ⟨st, h1, h2⟩ := ih t (by simpa using h)
      exact ⟨st, h1, List.mem_cons_of_mem _ h2⟩

theorem mem_getD_of_mem {w : List (List Nat)} {st : List Nat} (h : st ∈ w) :
    ∃ i, i < w.length ∧ w.getD i [] = st := by
  induction w with
  | nil => simp at h
  | cons hd tl ih =>
    rcases List.mem_cons.mp h with h1 | h2
    · exact ⟨0, by simp, h1.symm⟩
    · obtain ⟨i, h3, h4⟩ := ih h2
      exact ⟨i + 1, by simpa using h3, h4⟩

/-! ## The multiset of all blocks in a world -/

/-- All blocks present in a world, as a multiset. -/
def blocksOf (w : List (List Nat)) : Multiset Nat :=
  (w.map (fun st => (st : Multiset Nat))).sum

@[simp] theorem blocksOf_nil : blocksOf [] = 0 := rfl

@[simp] theorem blocksOf_cons (st : List Nat) (w : List (List Nat)) :
    blocksOf (st :: w) = (st : Multiset Nat) + blocksOf w := by
  simp [blocksOf]

theorem blocksOf_set (w : List (List Nat)) (i : Nat) (s : List Nat) (h : i < w.length) :
    blocksOf (w.set i s) + (w.getD i [] : Multiset Nat) = blocksOf w + (s : Multiset Nat) := by
  induction w generalizing i with
  | nil => simp at h
  | cons hd tl ih =>
    cases i with
    | zero =>
      show blocksOf (s :: tl) + (hd : Multiset Nat) = _
      simp [add_comm, add_assoc, add_left_comm]
    | succ t =>
      show blocksOf (hd :: tl.set t s) + (tl.getD t [] : Multiset Nat) = _
      have := ih t (by simpa using h)
      simp only [blocksOf_cons]
      rw [add_assoc, this, add_assoc]

theorem getD_le_blocksOf (w : List (List Nat)) (i : Nat) (h : i < w.length) :
    (w.getD i [] : Multiset Nat) ≤ blocksOf w := by
  induction w generalizing i with
  | nil => simp at h
  | cons hd tl ih =>
    cases i with
    | zero => simp [Multiset.le_add_right]
    | succ t =>
      show (tl.getD t [] : Multiset Nat) ≤ _
      calc (tl.getD t [] : Multiset Nat) ≤ blocksOf tl := ih t (by simpa using h)
        _ ≤ blocksOf (hd :: tl) := by simp [Multiset.le_add_left]

theorem pair_le_blocksOf (w : List (List Nat)) (i k : Nat) (hik : i ≠ k)
    (hi : i < w.length) (hk : k < w.length) :
    (w.getD i [] : Multiset Nat) + (w.getD k [] : Multiset Nat) ≤ blocksOf w := by
  induction w generalizing i k with
  | nil => simp at hi
  | cons hd tl ih =>
    cases i with
    | zero =>
      cases k with
      | zero => exact absurd rfl hik
      | succ t =>
        show (hd : Multiset Nat) + (tl.getD t [] : Multiset Nat) ≤ _
        simp only [blocksOf_cons]
        exact add_le_add le_rfl (getD_le_blocksOf tl t (by simpa using hk))
    | succ u =>
      cases k with
      | zero =>
        show (tl.getD u [] : Multiset Nat) + (hd : Multiset Nat) ≤ _
        rw [add_comm]
        simp only [blocksOf_cons]
        exact add_le_add le_rfl (getD_le_blocksOf tl u (by simpa using hi))
      | succ t =>
        show (tl.getD u [] : Multiset Nat) + (tl.getD t [] : Multiset Nat) ≤ _
        calc (tl.getD u [] : Multiset Nat) + (tl.getD t [] : Multiset Nat) ≤ blocksOf tl :=
              ih u t (by omega) (by simpa using hi) (by simpa using hk)
          _ ≤ blocksOf (hd :: tl) := by simp [Multiset.le_add_left]

theorem mem_blocksOf_iff {w : List (List Nat)} {x : Nat} :
    x ∈ blocksOf w ↔ ∃ i, i < w.length ∧ x ∈ w.getD i [] := by
  induction w with
  | nil => simp
  | cons hd tl ih =>
    simp only [blocksOf_cons, Multiset.mem_add, Multiset.mem_coe, ih]
    constructor
    · rintro (h | ⟨i, hi, hx⟩)
      · exact ⟨0, by simp, h⟩
      · exact ⟨i + 1, by simpa using hi, hx⟩
    · rintro ⟨i, hi, hx⟩
      cases i with
      | zero => exact Or.inl hx
      | succ t => exact Or.inr ⟨t, by simpa using hi, hx⟩

/-! ## Invariants of the world -/

/-- Home-stack bottom invariant: every nonempty stack has its own index
as bottom block. -/
def homeInv (n : Nat) (w : List (List Nat)) : Prop :=
  ∀ i, i < n → w.getD i [] = [] ∨ (w.getD i []).head? = some i

/-- Stacks whose index does not fit in an `i32` (possible only when the
world has more than `2^31` stacks) are still the untouched singletons:
no executed operation can name them, because `parameters_invalid`
rejects any operand at or above `2^31` through the `u32 as i32` wrap. -/
def highInv (n : Nat) (w : List (List Nat)) : Prop :=
  ∀ i, i < n → 2 ^ 31 ≤ i → w.getD i [] = [i]

/-- The full invariant of reachable worlds: `n` stacks, the blocks are
exactly `0..n-1` with multiplicity one, home-stack bottoms, untouched
high stacks. -/
structure WF (n : Nat) (w : List (List Nat)) : Prop where
  len : w.length = n
  conserv : blocksOf w = Multiset.range n
  home : homeInv n w
  high : highInv n w

/-- The part of the invariant that survives while a block is held "in
hand" between the pop and the final push of a move operation. -/
structure Tidy (n : Nat) (w : List (List Nat)) : Prop where
  len : w.length = n
  cle : ∀ y : Nat, (blocksOf w).count y ≤ 1
  mlt : ∀ y : Nat, y ∈ blocksOf w → y < n
  home : homeInv n w

theorem count_range_eq (n x : Nat) :
    Multiset.count x (Multiset.range n) = if x < n then 1 else 0 := by
  rw [Multiset.range, Multiset.coe_count]
  split
  · exact List.count_eq_one_of_mem (List.nodup_range n) (List.mem_range.mpr (by assumption))
  · exact List.count_eq_zero_of_not_mem (by simp_all [List.mem_range])

theorem WF.tidy {n : Nat} {w : List (List Nat)} (h : WF n w) : Tidy n w where
  len := h.len
  cle := by
    intro y
    rw [h.conserv, count_range_eq]
    split <;> omega
  mlt := by
    intro y hy
    rw [h.conserv, Multiset.mem_range] at hy
    exact hy
  home := h.home

theorem count_le_one_stack {w : List (List Nat)}
    (hcle : ∀ y : Nat, (blocksOf w).count y ≤ 1) {i : Nat} (hi : i < w.length) (x : Nat) :
    (w.getD i []).count x ≤ 1 := by
  have h1 : ((w.getD i [] : Multiset Nat)).count x ≤ (blocksOf w).count x :=
    Multiset.count_le_of_le x (getD_le_blocksOf w i hi)
  rw [Multiset.coe_count] at h1
  exact le_trans h1 (hcle x)

theorem stack_nodup {w : List (List Nat)}
    (hcle : ∀ y : Nat, (blocksOf w).count y ≤ 1) {i : Nat} (hi : i < w.length) :
    (w.getD i []).Nodup :=
  List.nodup_iff_count_le_one.mpr (count_le_one_stack hcle hi)

theorem not_mem_other {w : List (List Nat)}
    (hcle : ∀ y : Nat, (blocksOf w).count y ≤ 1) {i k x : Nat} (hik : i ≠ k)
    (hi : i < w.length) (hk : k < w.length) (hx : x ∈ w.getD i []) :
    x ∉ w.getD k [] := by
  intro hxk
  have h1 : ((w.getD i [] : Multiset Nat) + (w.getD k [] : Multiset Nat)).count x ≤
      (blocksOf w).count x :=
    Multiset.count_le_of_le x (pair_le_blocksOf w i k hik hi hk)
  rw [Multiset.count_add, Multiset.coe_count, Multiset.coe_count] at h1
  have h2 := List.count_pos_iff.mpr hx
  have h3 := List.count_pos_iff.mpr hxk
  have := hcle x
  omega

theorem mem_of_head?_eq {l : List Nat} {x : Nat} (h : l.head? = some x) : x ∈ l := by
  cases l with
  | nil => simp at h
  | cons hd tl =>
    simp only [List.head?_cons, Option.some.injEq] at h
    exact h ▸ List.mem_cons_self _ _

theorem mem_stack_lt {n : Nat} {w : List (List Nat)} (hT : Tidy n w) {i x : Nat}
    (hi : i < n) (hx : x ∈ w.getD i []) : x < n :=
  hT.mlt x (mem_blocksOf_iff.mpr ⟨i, hT.len ▸ hi, hx⟩)

/-- Under the invariant, a block sitting in another block's stack has an
empty home stack: this is what makes "return block `x` to stack `x`"
produce a singleton. -/
theorem home_stack_empty {n : Nat} {w : List (List Nat)} (hT : Tidy n w) {i x : Nat}
    (hi : i < n) (hx : x ∈ w.getD i []) (hxi : x ≠ i) : w.getD x [] = [] := by
  have hxn : x < n := mem_stack_lt hT hi hx
  rcases hT.home x hxn with h | h
  · exact h
  · exact absurd hx
      (not_mem_other hT.cle hxi (hT.len ▸ hxn) (hT.len ▸ hi) (mem_of_head?_eq h))

theorem length_le_of_nodup_lt {l : List Nat} {m : Nat} (hnd : l.Nodup)
    (hlt : ∀ x ∈ l, x < m) : l.length ≤ m := by
  have hsub : l.toFinset ⊆ Finset.range m := by
    intro x hx
    exact Finset.mem_range.mpr (hlt x (List.mem_toFinset.mp hx))
  have hcard := Finset.card_le_card hsub
  rwa [List.toFinset_card_of_nodup hnd, Finset.card_range] at hcard

/-- Under the invariant, a stack that holds a block other than its own
index consists of blocks below `2^31` and has index below `2^31`. -/
theorem stack_coords_small {n : Nat} {w : List (List Nat)} (hT : Tidy n w)
    (hhigh : highInv n w) {i x : Nat} (hi : i < n) (hx : x ∈ w.getD i [])
    (hx31 : x < 2 ^ 31) :
    i < 2 ^ 31 ∧ (∀ y ∈ w.getD i [], y < 2 ^ 31) ∧ (w.getD i []).length ≤ 2 ^ 31 := by
  have hilt : i < 2 ^ 31 := by
    by_contra hge
    rw [hhigh i hi (by omega)] at hx
    simp only [List.mem_singleton] at hx
    omega
  have helem : ∀ y ∈ w.getD i [], y < 2 ^ 31 := by
    intro y hy
    by_contra hge
    have hyn : y < n := mem_stack_lt hT hi hy
    have hsing := hhigh y hyn (by omega)
    have hyy : y ∈ w.getD y [] := by rw [hsing]; exact List.mem_singleton_self y
    exact not_mem_other hT.cle (show y ≠ i by omega) (hT.len ▸ hyn) (hT.len ▸ hi) hyy hy
  exact ⟨hilt, helem,
    length_le_of_nodup_lt (stack_nodup hT.cle (hT.len ▸ hi)) helem⟩

/-! ## `where_is` finds the unique location of a block -/

theorem findIdxA_eq_none {x : Nat} {l : List Nat} (h : x ∉ l) : findIdxA x l = none := by
  induction l with
  | nil => rfl
  | cons hd tl ih =>
    simp only [List.mem_cons, not_or] at h
    unfold findIdxA
    rw [if_neg (fun hh => h.1 hh.symm), ih h.2]
    rfl

theorem findIdxA_append {x : Nat} {p q : List Nat} (h : x ∉ p) :
    findIdxA x (p ++ x :: q) = some p.length := by
  induction p with
  | nil => simp [findIdxA]
  | cons hd tl ih =>
    simp only [List.mem_cons, not_or] at h
    show findIdxA x (hd :: (tl ++ x :: q)) = _
    unfold findIdxA
    rw [if_neg (fun hh => h.1 hh.symm), ih h.2]
    rfl

theorem findLoc_eq {x : Nat} (w : List (List Nat)) (off i : Nat) (p q : List Nat)
    (hi : i < w.length) (hsi : w.getD i [] = p ++ x :: q) (hp : x ∉ p)
    (hbefore : ∀ t, t < i → x ∉ w.getD t []) :
    findLoc w x off = (u32AsI32 (off + i), u32AsI32 p.length) := by
  induction w generalizing off i with
  | nil => simp at hi
  | cons hd tl ih =>
    cases i with
    | zero =>
      have heq : hd = p ++ x :: q := hsi
      unfold findLoc
      rw [heq, findIdxA_append hp]
      simp
    | succ t =>
      have h0 : x ∉ hd := hbefore 0 (Nat.succ_pos t)
      have hi2 : t < tl.length := by simp only [List.length_cons] at hi; omega
      have hsi2 : tl.getD t [] = p ++ x :: q := hsi
      have hb2 : ∀ u, u < t → x ∉ tl.getD u [] := fun u hu => hbefore (u + 1) (by omega)
      unfold findLoc
      rw [findIdxA_eq_none h0, ih (off + 1) t hi2 hsi2 hb2]
      have harith : off + 1 + t = off + (t + 1) := by omega
      rw [harith]

theorem where_is_spec {s : Blocks} {A i : Nat} {p q : List Nat}
    (hcle : ∀ y : Nat, (blocksOf s.world).count y ≤ 1)
    (hA31 : A < 2 ^ 31) (hi : i < s.world.length)
    (hsi : s.world.getD i [] = p ++ A :: q) :
    s.where_is (u32AsI32 A) = (u32AsI32 i, u32AsI32 p.length) := by
  have hnn : ¬ u32AsI32 A < 0 := by
    rw [u32AsI32_of_lt hA31]
    omega
  have hp : A ∉ p := by
    have hc := count_le_one_stack hcle hi A
    rw [hsi, List.count_append, List.count_cons_self] at hc
    have : p.count A = 0 := by omega
    exact List.count_eq_zero.mp this
  have hbefore : ∀ t, t < i → A ∉ s.world.getD t [] := by
    intro t ht
    exact not_mem_other hcle (show i ≠ t by omega) hi (by omega)
      (hsi ▸ List.mem_append_right p (List.mem_cons_self A q))
  unfold Blocks.where_is
  rw [if_neg hnn, intAsU32_u32AsI32 (by omega)]
  rw [findLoc_eq s.world 0 i p q hi hsi hp hbefore]
  norm_num

/-! ## The unpiling loop `returnBlocks` -/

theorem returnBlocks_succ (w : List (List Nat)) (i m : Nat) :
    returnBlocks w i (m + 1) =
      returnBlocks
        ((w.set i (w.getD i []).dropLast).set ((w.getD i []).getLast?.getD 0)
          ((w.set i (w.getD i []).dropLast).getD ((w.getD i []).getLast?.getD 0) [] ++
            [(w.getD i []).getLast?.getD 0])) i m := rfl

/-- Behaviour of the unpiling loop under the invariant: popping the
`extra.length` blocks sitting on `base` in stack `i` leaves `base` there,
puts every popped block alone on its own stack, touches nothing else, and
preserves the invariant and the block multiset. -/
theorem returnBlocks_spec (extra : List Nat) :
    ∀ (n : Nat) (w : List (List Nat)) (i : Nat) (base : List Nat),
    Tidy n w → i < n → w.getD i [] = base ++ extra → base.head? = some i →
    Tidy n (returnBlocks w i extra.length) ∧
    blocksOf (returnBlocks w i extra.length) = blocksOf w ∧
    (returnBlocks w i extra.length).getD i [] = base ∧
    (∀ x ∈ extra, (returnBlocks w i extra.length).getD x [] = [x]) ∧
    (∀ t, t ≠ i → t ∉ extra → (returnBlocks w i extra.length).getD t [] = w.getD t []) := by
  induction extra using List.reverseRecOn with
  | nil =>
    intro n w i base hT hi hw hhead
    refine ⟨hT, rfl, by simpa using hw, ?_, fun t _ _ => rfl⟩
    intro x hx
    simp at hx
  | append_singleton ys x ih =>
    intro n w i base hT hi hw hhead
    obtain ⟨bs, rfl⟩ : ∃ bs, base = i :: bs := by
      cases base with
      | nil => simp at hhead
      | cons b0 bs =>
        have hb0 : b0 = i := by simpa using hhead
        exact ⟨bs, by rw [hb0]⟩
    set base := i :: bs with hbase
    have hiw : i < w.length := hT.len ▸ hi
    have hx_mem : x ∈ w.getD i [] := by rw [hw]; simp
    have hx_n : x < n := mem_stack_lt hT hi hx_mem
    have hi_mem : i ∈ w.getD i [] := by
      rw [hw]
      exact List.mem_append_left _ (by rw [hbase]; exact List.mem_cons_self i bs)
    have hcx := count_le_one_stack hT.cle hiw x
    have hx_ne_i : x ≠ i := by
      intro h
      rw [hw, List.count_append, List.count_append] at hcx
      have h1 : 0 < base.count x :=
        List.count_pos_iff.mpr (by rw [h, hbase]; exact List.mem_cons_self i bs)
      have h2 : 0 < [x].count x := by simp
      omega
    have hx_not_ys : x ∉ ys := by
      intro hxy
      rw [hw, List.count_append, List.count_append] at hcx
      have h1 : 0 < ys.count x := List.count_pos_iff.mpr hxy
      have h2 : 0 < [x].count x := by simp
      omega
    have hx_empty : w.getD x [] = [] := home_stack_empty hT hi hx_mem hx_ne_i
    have hlast : (w.getD i []).getLast?.getD 0 = x := by
      rw [hw, ← List.append_assoc, List.getLast?_concat]
      rfl
    have hdrop : (w.getD i []).dropLast = base ++ ys := by
      rw [hw, ← List.append_assoc, List.dropLast_concat]
    have hlen1 : (w.set i (base ++ ys)).length = w.length := List.length_set w i _
    have hpush : (w.set i (base ++ ys)).getD x [] ++ [x] = [x] := by
      rw [getD_set_ne w i x _ hx_ne_i, hx_empty]
      rfl
    have hrw : returnBlocks w i (ys ++ [x]).length =
        returnBlocks ((w.set i (base ++ ys)).set x [x]) i ys.length := by
      have hl : (ys ++ [x]).length = ys.length + 1 := by simp
      rw [hl, returnBlocks_succ, hlast, hdrop, hpush]
    -- the one-step successor world
    set w2 := (w.set i (base ++ ys)).set x [x] with hw2
    have hw2len : w2.length = n := by
      rw [hw2, List.length_set, hlen1, hT.len]
    have hxw1 : x < (w.set i (base ++ ys)).length := by
      rw [hlen1, hT.len]
      exact hx_n
    have hw2i : w2.getD i [] = base ++ ys := by
      rw [hw2, getD_set_ne _ x i _ (fun h => hx_ne_i h.symm), getD_set_self w i _ hiw]
    have hw2x : w2.getD x [] = [x] := getD_set_self _ x _ hxw1
    have hw2other : ∀ t, t ≠ i → t ≠ x → w2.getD t [] = w.getD t [] := by
      intro t hti htx
      rw [hw2, getD_set_ne _ x t _ htx, getD_set_ne w i t _ hti]
    -- the block multiset is unchanged by the step
    have e1 := blocksOf_set w i (base ++ ys) hiw
    rw [hw] at e1
    have e1' : blocksOf (w.set i (base ++ ys)) + ({x} : Multiset Nat) = blocksOf w := by
      have : blocksOf (w.set i (base ++ ys)) + ((base : Multiset Nat) + (↑ys + {x})) =
          blocksOf w + ((base : Multiset Nat) + ↑ys) := by
        simpa using e1
      have h3 : (blocksOf (w.set i (base ++ ys)) + {x}) + ((base : Multiset Nat) + ↑ys) =
          blocksOf w + ((base : Multiset Nat) + ↑ys) := by
        rw [← this]; abel
      exact add_right_cancel h3
    have e2 := blocksOf_set (w.set i (base ++ ys)) x [x] hxw1
    rw [getD_set_ne w i x _ hx_ne_i, hx_empty] at e2
    have hB : blocksOf w2 = blocksOf w := by
      have : blocksOf w2 + (0 : Multiset Nat) = blocksOf (w.set i (base ++ ys)) + {x} := by
        simpa using e2
      rw [add_zero] at this
      rw [this, e1']
    -- the invariant survives the step
    have hT2 : Tidy n w2 := by
      refine ⟨hw2len, ?_, ?_, ?_⟩
      · intro y; rw [hB]; exact hT.cle y
      · intro y hy; rw [hB] at hy; exact hT.mlt y hy
      · intro t ht
        by_cases htx : t = x
        · subst htx
          right
          rw [hw2x]
          rfl
        · by_cases hti : t = i
          · subst hti
            right
            rw [hw2i, hbase]
            rfl
          · rw [hw2other t hti htx]
            exact hT.home t ht
    have hmain := ih n w2 i base hT2 hi hw2i (by rw [hbase]; rfl)
    rw [hrw]
    refine ⟨hmain.1, ?_, hmain.2.2.1, ?_, ?_⟩
    · rw [hmain.2.1, hB]
    · intro y hy
      rcases List.mem_append.mp hy with hys | hsing
      · exact hmain.2.2.2.1 y hys
      · have hyx : y = x := by simpa using hsing
        subst hyx
        rw [hmain.2.2.2.2 y hx_ne_i hx_not_ys, hw2x]
    · intro t hti htm
      have htx : t ≠ x := by
        intro h
        exact htm (by rw [h]; simp)
      have htys : t ∉ ys := fun h => htm (List.mem_append_left _ h)
      rw [hmain.2.2.2.2 t hti htys, hw2other t hti htx]

/-! ## The pop loop `popN` of the pile operations -/

theorem popN_eq_take (m : Nat) : ∀ (l : List Nat), m ≤ l.length →
    popN l m = l.take (l.length - m) := by
  induction m with
  | zero =>
    intro l _
    show l = l.take (l.length - 0)
    rw [Nat.sub_zero, List.take_length]
  | succ k ih =>
    intro l hm
    show popN l.dropLast k = _
    have hdl : l.dropLast.length = l.length - 1 := List.length_dropLast l
    rw [ih l.dropLast (by omega), hdl, List.dropLast_eq_take, List.take_take]
    congr 1
    omega

/-! ## Characterising `parameters_invalid` -/

theorem validation_cond_false_iff {len A B : Nat} (hA32 : A < 2 ^ 32) (hB32 : B < 2 ^ 32) :
    ((u32AsI32 A == u32AsI32 B) || decide (u32AsI32 A < 0) || decide (u32AsI32 B < 0) ||
      decide (len ≤ intToUsize (u32AsI32 A)) || decide (len ≤ intToUsize (u32AsI32 B))) = false ↔
    (A < 2 ^ 31 ∧ B < 2 ^ 31 ∧ A ≠ B ∧ A < len ∧ B < len) := by
  simp only [Bool.or_eq_false_iff, decide_eq_false_iff_not, not_lt, not_le,
    beq_eq_false_iff_ne, ne_eq]
  constructor
  · rintro ⟨⟨⟨⟨h1, h2⟩, h3⟩, h4⟩, h5⟩
    have hA31 : A < 2 ^ 31 := (u32AsI32_nonneg_iff hA32).mp h2
    have hB31 : B < 2 ^ 31 := (u32AsI32_nonneg_iff hB32).mp h3
    rw [u32AsI32_of_lt hA31] at h1 h4
    rw [u32AsI32_of_lt hB31] at h1 h5
    rw [intToUsize_ofNat (by omega)] at h4
    rw [intToUsize_ofNat (by omega)] at h5
    exact ⟨hA31, hB31, fun he => h1 (by rw [he]), by omega, by omega⟩
  · rintro ⟨hA31, hB31, hne, h4, h5⟩
    rw [u32AsI32_of_lt hA31, u32AsI32_of_lt hB31,
      intToUsize_ofNat (by omega), intToUsize_ofNat (by omega)]
    refine ⟨⟨⟨⟨fun he => hne (by exact_mod_cast he), by omega⟩, by omega⟩, by omega⟩, by omega⟩

theorem parameters_invalid_false_iff {s : Blocks} {A B : Nat}
    (ha : s.a = some A) (hb : s.b = some B) (hA32 : A < 2 ^ 32) (hB32 : B < 2 ^ 32) :
    s.parameters_invalid = false ↔
      (A < 2 ^ 31 ∧ B < 2 ^ 31 ∧ A ≠ B ∧ A < s.world.length ∧ B < s.world.length ∧
       ∀ st ∈ s.world, ¬(A ∈ st ∧ B ∈ st)) := by
  have hab : s.get_a_and_b = (u32AsI32 A, u32AsI32 B) := by
    unfold Blocks.get_a_and_b
    rw [ha, hb]
  simp only [Blocks.parameters_invalid, Blocks.same_stack, hab,
    intAsU32_u32AsI32 hA32, intAsU32_u32AsI32 hB32]
  split
  next hcond =>
    simp only [Bool.true_eq_false, false_iff, not_and]
    intro hA31 hB31 hne hAl hBl
    have hfalse := (@validation_cond_false_iff s.world.length A B hA32 hB32).mpr
      ⟨hA31, hB31, hne, hAl, hBl⟩
    rw [hcond] at hfalse
    simp at hfalse
  next hcond =>
    have hcf : ((u32AsI32 A == u32AsI32 B) || decide (u32AsI32 A < 0) || decide (u32AsI32 B < 0) ||
        decide (s.world.length ≤ intToUsize (u32AsI32 A)) ||
        decide (s.world.length ≤ intToUsize (u32AsI32 B))) = false := by
      revert hcond
      cases ((u32AsI32 A == u32AsI32 B) || decide (u32AsI32 A < 0) || decide (u32AsI32 B < 0) ||
        decide (s.world.length ≤ intToUsize (u32AsI32 A)) ||
        decide (s.world.length ≤ intToUsize (u32AsI32 B))) <;> simp
    obtain ⟨hA31, hB31, hne, hAl, hBl⟩ := (validation_cond_false_iff hA32 hB32).mp hcf
    simp only [hA31, hB31, ne_eq, hne, not_false_eq_true, hAl, hBl, true_and]
    rw [List.any_eq_false]
    constructor
    · intro h st hst hmem
      have := h st hst
      simp only [Bool.and_eq_true, decide_eq_true_eq, not_and] at this
      exact this hmem.1 hmem.2
    · intro h st hst
      simp only [Bool.and_eq_true, decide_eq_true_eq, not_and]
      intro h1 h2
      exact h st hst ⟨h1, h2⟩

/-! ## Helpers about the head of a decomposed stack -/

theorem head_of_stack_decomp {i A : Nat} {pa qa l : List Nat}
    (hh : l.head? = some i) (hl : l = pa ++ A :: qa) : (pa ++ [A]).head? = some i := by
  subst hl
  cases pa with
  | nil => simpa using hh
  | cons p0 ps => simpa using hh

theorem head_not_mem_suffix {i A : Nat} {pa qa : List Nat}
    (hc : (pa ++ A :: qa).count i ≤ 1) (hh : (pa ++ A :: qa).head? = some i) : i ∉ qa := by
  intro hmem
  have h1 : 0 < qa.count i := List.count_pos_iff.mpr hmem
  cases pa with
  | nil =>
    have hAi : A = i := by simpa using hh
    subst hAi
    simp only [List.nil_append, List.count_cons_self] at hc
    omega
  | cons p0 ps =>
    have hp0 : p0 = i := by simpa using hh
    subst hp0
    rw [List.cons_append, List.count_cons_self, List.count_append, List.count_cons] at hc
    omega

/-- Popping the top block `A` of stack `i` (which holds `pa ++ [A]`)
keeps the in-hand invariant, removes exactly `A` from the block multiset,
and touches no other stack. -/
theorem pop_top_spec {n : Nat} {w1 : List (List Nat)} {i A : Nat} {pa : List Nat}
    (hT1 : Tidy n w1) (hi : i < n) (hw1i : w1.getD i [] = pa ++ [A])
    (hhead : (pa ++ [A]).head? = some i) :
    Tidy n (w1.set i pa) ∧
    blocksOf (w1.set i pa) + ({A} : Multiset Nat) = blocksOf w1 ∧
    (w1.set i pa).getD i [] = pa ∧
    (∀ t, t ≠ i → (w1.set i pa).getD t [] = w1.getD t []) := by
  have hiw : i < w1.length := hT1.len ▸ hi
  have hbo := blocksOf_set w1 i pa hiw
  rw [hw1i] at hbo
  have hpop : blocksOf (w1.set i pa) + ({A} : Multiset Nat) = blocksOf w1 := by
    have h2 : blocksOf (w1.set i pa) + ({A} : Multiset Nat) + (pa : Multiset Nat) =
        blocksOf w1 + (pa : Multiset Nat) := by
      have h3 : blocksOf (w1.set i pa) + ((pa : Multiset Nat) + {A}) =
          blocksOf w1 + (pa : Multiset Nat) := by simpa using hbo
      rw [← h3]
      abel
    exact add_right_cancel h2
  have hle : blocksOf (w1.set i pa) ≤ blocksOf w1 := by
    rw [← hpop]
    exact Multiset.le_add_right _ _
  refine ⟨⟨?_, ?_, ?_, ?_⟩, hpop, getD_set_self w1 i pa hiw, fun t ht => getD_set_ne w1 i t pa ht⟩
  · rw [List.length_set, hT1.len]
  · intro y
    exact le_trans (Multiset.count_le_of_le y hle) (hT1.cle y)
  · intro y hy
    exact hT1.mlt y (Multiset.mem_of_le hle hy)
  · intro t ht
    by_cases hti : t = i
    · subst hti
      rw [getD_set_self w1 t pa hiw]
      cases pa with
      | nil => exact Or.inl rfl
      | cons p0 ps =>
        right
        simpa using hhead
    · rw [getD_set_ne w1 i t pa hti]
      exact hT1.home t ht

/-! ## Execution lemma for `move_a_onto_b` -/

/-- What a validated `move a onto b` does: stack `i` keeps only the part
below `a`, each block above `a` or above `b` sits alone on its own stack,
stack `k` is cut back to `b` and receives `a` on top, nothing else moves,
and the world invariant is preserved. -/
theorem move_a_onto_b_spec {n : Nat} {s : Blocks} {A B i k : Nat} {pa qa pb qb : List Nat}
    (hWF : WF n s.world) (ha : s.a = some A) (hb : s.b = some B)
    (hA31 : A < 2 ^ 31) (hB31 : B < 2 ^ 31)
    (hik : i ≠ k) (hi : i < n) (hk : k < n)
    (hsa : s.world.getD i [] = pa ++ A :: qa)
    (hsb : s.world.getD k [] = pb ++ B :: qb) :
    WF n s.move_a_onto_b.world ∧
    s.move_a_onto_b.world.getD i [] = pa ∧
    s.move_a_onto_b.world.getD k [] = pb ++ [B, A] ∧
    (∀ x ∈ qa, s.move_a_onto_b.world.getD x [] = [x]) ∧
    (∀ x ∈ qb, s.move_a_onto_b.world.getD x [] = [x]) ∧
    (∀ t, t ≠ i → t ≠ k → t ∉ qa → t ∉ qb →
      s.move_a_onto_b.world.getD t [] = s.world.getD t []) ∧
    s.move_a_onto_b.state = s.state ∧ s.move_a_onto_b.a = s.a ∧ s.move_a_onto_b.b = s.b := by
  have hT := hWF.tidy
  have hlen : s.world.length = n := hWF.len
  have hiw : i < s.world.length := hlen ▸ hi
  have hkw : k < s.world.length := hlen ▸ hk
  have hA_mem : A ∈ s.world.getD i [] := by
    rw [hsa]; exact List.mem_append_right _ (List.mem_cons_self _ _)
  have hB_mem : B ∈ s.world.getD k [] := by
    rw [hsb]; exact List.mem_append_right _ (List.mem_cons_self _ _)
  have hA32 : A < 2 ^ 32 := by omega
  have hB32 : B < 2 ^ 32 := by omega
  have hAn : A < n := mem_stack_lt hT hi hA_mem
  have hBn : B < n := mem_stack_lt hT hk hB_mem
  have hAB : A ≠ B := fun he =>
    (not_mem_other hT.cle hik hiw hkw hA_mem) (by rw [← he] at hB_mem; exact hB_mem)
  have hnostk : ∀ st ∈ s.world, ¬(A ∈ st ∧ B ∈ st) := by
    intro st hst hmem
    obtain ⟨t, htw, hts⟩ := mem_getD_of_mem hst
    have hti : t = i := by
      by_contra hne
      exact (not_mem_other hT.cle (fun h => hne h.symm) hiw htw hA_mem)
        (by rw [hts]; exact hmem.1)
    have htk : t = k := by
      by_contra hne
      exact (not_mem_other hT.cle (fun h => hne h.symm) hkw htw hB_mem)
        (by rw [hts]; exact hmem.2)
    exact hik (by rw [← hti, htk])
  have hpv : s.parameters_invalid = false :=
    (parameters_invalid_false_iff ha hb hA32 hB32).mpr
      ⟨hA31, hB31, hAB, by omega, by omega, hnostk⟩
  obtain ⟨hi31, hielem, hilen⟩ := stack_coords_small hT hWF.high hi hA_mem hA31
  obtain ⟨hk31, hkelem, hklen⟩ := stack_coords_small hT hWF.high hk hB_mem hB31
  have hj31 : pa.length < 2 ^ 31 := by
    have h1 : pa.length < (s.world.getD i []).length := by rw [hsa]; simp
    omega
  have hl31 : pb.length < 2 ^ 31 := by
    have h1 : pb.length < (s.world.getD k []).length := by rw [hsb]; simp
    omega
  have hab : s.get_a_and_b = (u32AsI32 A, u32AsI32 B) := by
    unfold Blocks.get_a_and_b
    rw [ha, hb]
  have hwA := where_is_spec hT.cle hA31 hiw hsa
  have hwB := where_is_spec hT.cle hB31 hkw hsb
  have hconv : ∀ m : Nat, m < 2 ^ 31 → intToUsize (u32AsI32 m) = m := fun m hm => by
    rw [u32AsI32_of_lt hm, intToUsize_ofNat (by omega)]
  have e1 : intToUsize (s.where_is s.get_a_and_b.1).1 = i := by
    rw [hab]
    show intToUsize (s.where_is (u32AsI32 A)).1 = i
    rw [hwA]
    exact hconv i hi31
  have e2 : intToUsize (s.where_is s.get_a_and_b.1).2 = pa.length := by
    rw [hab]
    show intToUsize (s.where_is (u32AsI32 A)).2 = pa.length
    rw [hwA]
    exact hconv pa.length hj31
  have e3 : intToUsize (s.where_is s.get_a_and_b.2).1 = k := by
    rw [hab]
    show intToUsize (s.where_is (u32AsI32 B)).1 = k
    rw [hwB]
    exact hconv k hk31
  have e4 : intToUsize (s.where_is s.get_a_and_b.2).2 = pb.length := by
    rw [hab]
    show intToUsize (s.where_is (u32AsI32 B)).2 = pb.length
    rw [hwB]
    exact hconv pb.length hl31
  -- phase 1: unpile above `a`
  have hstack_i : s.world.getD i [] = (pa ++ [A]) ++ qa := by rw [hsa]; simp
  have hhead_i : (s.world.getD i []).head? = some i := by
    rcases hWF.home i hi with hemp | hh
    · rw [hemp] at hsa
      simp at hsa
    · exact hh
  have hheadA : (pa ++ [A]).head? = some i := head_of_stack_decomp hhead_i hsa
  obtain ⟨hT1, hbo1, hw1i, hq1, hf1⟩ :=
    returnBlocks_spec qa n s.world i (pa ++ [A]) hT hi hstack_i hheadA
  have hqalen : (s.world.getD i []).length - pa.length - 1 = qa.length := by
    rw [hsa]
    simp only [List.length_append, List.length_cons]
    omega
  have hk_not_qa : k ∉ qa := by
    intro hkqa
    have hkmem : k ∈ s.world.getD i [] := by
      rw [hsa]; exact List.mem_append_right _ (List.mem_cons_of_mem _ hkqa)
    have hempty := home_stack_empty hT hi hkmem (fun h => hik h.symm)
    rw [hsb] at hempty
    simp at hempty
  have hi_not_qb : i ∉ qb := by
    intro hiqb
    have himem : i ∈ s.world.getD k [] := by
      rw [hsb]; exact List.mem_append_right _ (List.mem_cons_of_mem _ hiqb)
    have hempty := home_stack_empty hT hk himem hik
    rw [hsa] at hempty
    simp at hempty
  have hi_not_qa : i ∉ qa :=
    head_not_mem_suffix (by rw [← hsa]; exact count_le_one_stack hT.cle hiw i)
      (by rw [← hsa]; exact hhead_i)
  have hhead_k : (s.world.getD k []).head? = some k := by
    rcases hWF.home k hk with hemp | hh
    · rw [hemp] at hsb
      simp at hsb
    · exact hh
  have hk_not_qb : k ∉ qb :=
    head_not_mem_suffix (by rw [← hsb]; exact count_le_one_stack hT.cle hkw k)
      (by rw [← hsb]; exact hhead_k)
  have hW1k : (returnBlocks s.world i qa.length).getD k [] = s.world.getD k [] :=
    hf1 k (fun h => hik h.symm) hk_not_qa
  -- pop `a`
  obtain ⟨hT2, hbo2, hw2i, hf2⟩ := pop_top_spec hT1 hi hw1i hheadA
  have hW2k : ((returnBlocks s.world i qa.length).set i pa).getD k [] = s.world.getD k [] := by
    rw [hf2 k (fun h => hik h.symm), hW1k]
  -- phase 2: unpile above `b`
  have hqblen : (((returnBlocks s.world i qa.length).set i pa).getD k []).length -
      pb.length - 1 = qb.length := by
    rw [hW2k, hsb]
    simp only [List.length_append, List.length_cons]
    omega
  have hstack_k : ((returnBlocks s.world i qa.length).set i pa).getD k [] =
      (pb ++ [B]) ++ qb := by
    rw [hW2k, hsb]; simp
  have hheadB : (pb ++ [B]).head? = some k := head_of_stack_decomp hhead_k hsb
  obtain ⟨hT3, hbo3, hw3k, hq3, hf3⟩ :=
    returnBlocks_spec qb n ((returnBlocks s.world i qa.length).set i pa) k (pb ++ [B])
      hT2 hk hstack_k hheadB
  -- the executed operation, as one equation
  have hstep : s.move_a_onto_b = Blocks.mk s.state
      ((returnBlocks ((returnBlocks s.world i qa.length).set i pa) k qb.length).set k
        ((returnBlocks ((returnBlocks s.world i qa.length).set i pa) k qb.length).getD k []
          ++ [A])) s.a s.b := by
    unfold Blocks.move_a_onto_b
    rw [if_neg (by rw [hpv]; simp)]
    simp only []
    rw [e1, e2, e3, e4]
    rw [show (s.world.getD i []).length - pa.length - 1 = qa.length from hqalen]
    rw [hw1i, List.getLast?_concat, List.dropLast_concat]
    simp only [Option.getD_some]
    rw [show (((returnBlocks s.world i qa.length).set i pa).getD k []).length -
      pb.length - 1 = qb.length from hqblen]
  have hworld : s.move_a_onto_b.world =
      (returnBlocks ((returnBlocks s.world i qa.length).set i pa) k qb.length).set k
        ((pb ++ [B]) ++ [A]) := by
    rw [hstep, hw3k]
  have hkW3 : k < (returnBlocks ((returnBlocks s.world i qa.length).set i pa) k
      qb.length).length := by
    rw [hT3.len]; exact hk
  -- the final stacks
  have hfin_i : s.move_a_onto_b.world.getD i [] = pa := by
    rw [hworld, getD_set_ne _ k i _ hik, hf3 i hik hi_not_qb, hw2i]
  have hfin_k : s.move_a_onto_b.world.getD k [] = pb ++ [B, A] := by
    rw [hworld, getD_set_self _ k _ hkW3]
    simp
  have hx_qa_ne_i : ∀ x ∈ qa, x ≠ i := fun x hx he => hi_not_qa (he ▸ hx)
  have hqa_sub : ∀ x ∈ qa, x ∈ s.world.getD i [] := by
    intro x hx
    rw [hsa]; exact List.mem_append_right _ (List.mem_cons_of_mem _ hx)
  have hqb_sub : ∀ x ∈ qb, x ∈ s.world.getD k [] := by
    intro x hx
    rw [hsb]; exact List.mem_append_right _ (List.mem_cons_of_mem _ hx)
  have hqa_not_qb : ∀ x ∈ qa, x ∉ qb := by
    intro x hx hxqb
    exact (not_mem_other hT.cle hik hiw hkw (hqa_sub x hx)) (hqb_sub x hxqb)
  have hfin_qa : ∀ x ∈ qa, s.move_a_onto_b.world.getD x [] = [x] := by
    intro x hx
    have hxk : x ≠ k := fun he => hk_not_qa (he ▸ hx)
    rw [hworld, getD_set_ne _ k x _ hxk, hf3 x hxk (hqa_not_qb x hx),
      hf2 x (hx_qa_ne_i x hx), hq1 x hx]
  have hfin_qb : ∀ x ∈ qb, s.move_a_onto_b.world.getD x [] = [x] := by
    intro x hx
    have hxk : x ≠ k := fun he => hk_not_qb (he ▸ hx)
    rw [hworld, getD_set_ne _ k x _ hxk, hq3 x hx]
  have hfin_frame : ∀ t, t ≠ i → t ≠ k → t ∉ qa → t ∉ qb →
      s.move_a_onto_b.world.getD t [] = s.world.getD t [] := by
    intro t hti htk htqa htqb
    rw [hworld, getD_set_ne _ k t _ htk, hf3 t htk htqb, hf2 t hti, hf1 t hti htqa]
  -- conservation for the final world
  have hboW4 : blocksOf (s.move_a_onto_b.world) = Multiset.range n := by
    rw [hworld]
    have e5 := blocksOf_set
      (returnBlocks ((returnBlocks s.world i qa.length).set i pa) k qb.length) k
      ((pb ++ [B]) ++ [A]) hkW3
    rw [hw3k] at e5
    have hcancel : ∀ u v : Multiset Nat,
        u + ((pb ++ [B] : List Nat) : Multiset Nat) =
          v + ((pb ++ [B] ++ [A] : List Nat) : Multiset Nat) → u = v + {A} := by
      intro u v h
      have h2 : u + ((pb ++ [B] : List Nat) : Multiset Nat) =
          (v + {A}) + ((pb ++ [B] : List Nat) : Multiset Nat) := by
        rw [h]
        have h3 : ((pb ++ [B] ++ [A] : List Nat) : Multiset Nat) =
            ((pb ++ [B] : List Nat) : Multiset Nat) + {A} := by
          rw [← Multiset.coe_singleton A, ← Multiset.coe_add]
        rw [h3]
        abel
      exact add_right_cancel h2
    have e6 := hcancel _ _ e5
    rw [e6, hbo3, hbo2, hbo1, hWF.conserv]
  -- the invariant for the final world
  have hWF4 : WF n s.move_a_onto_b.world := by
    refine ⟨?_, hboW4, ?_, ?_⟩
    · rw [hworld, List.length_set, hT3.len]
    · intro t ht
      by_cases hti : t = i
      · subst hti
        rw [hfin_i]
        cases pa with
        | nil => exact Or.inl rfl
        | cons p0 ps =>
          right
          simpa using hheadA
      · by_cases htk : t = k
        · subst htk
          rw [hfin_k]
          right
          cases pb with
          | nil => simpa using hheadB
          | cons p0 ps => simpa using hheadB
        · by_cases htqa : t ∈ qa
          · rw [hfin_qa t htqa]
            exact Or.inr rfl
          · by_cases htqb : t ∈ qb
            · rw [hfin_qb t htqb]
              exact Or.inr rfl
            · rw [hfin_frame t hti htk htqa htqb]
              exact hWF.home t ht
    · intro t ht h31
      have hti : t ≠ i := by omega
      have htk : t ≠ k := by omega
      have htqa : t ∉ qa := fun hmem => by
        have := hielem t (hqa_sub t hmem)
        omega
      have htqb : t ∉ qb := fun hmem => by
        have := hkelem t (hqb_sub t hmem)
        omega
      rw [hfin_frame t hti htk htqa htqb]
      exact hWF.high t ht h31
  have hfields : s.move_a_onto_b.state = s.state ∧ s.move_a_onto_b.a = s.a ∧
      s.move_a_onto_b.b = s.b := by
    rw [hstep]
    exact ⟨rfl, rfl, rfl⟩
  exact ⟨hWF4, hfin_i, hfin_k, hfin_qa, hfin_qb, hfin_frame, hfields⟩

/-! ## Execution lemma for `move_a_over_b` -/

/-- What a validated `move a over b` does: stack `i` keeps only the part
below `a`, each block above `a` sits alone on its own stack, `a` lands on
top of stack `k` without disturbing it, nothing else moves, and the world
invariant is preserved. -/
theorem move_a_over_b_spec {n : Nat} {s : Blocks} {A B i k : Nat} {pa qa pb qb : List Nat}
    (hWF : WF n s.world) (ha : s.a = some A) (hb : s.b = some B)
    (hA31 : A < 2 ^ 31) (hB31 : B < 2 ^ 31)
    (hik : i ≠ k) (hi : i < n) (hk : k < n)
    (hsa : s.world.getD i [] = pa ++ A :: qa)
    (hsb : s.world.getD k [] = pb ++ B :: qb) :
    WF n s.move_a_over_b.world ∧
    s.move_a_over_b.world.getD i [] = pa ∧
    s.move_a_over_b.world.getD k [] = s.world.getD k [] ++ [A] ∧
    (∀ x ∈ qa, s.move_a_over_b.world.getD x [] = [x]) ∧
    (∀ t, t ≠ i → t ≠ k → t ∉ qa →
      s.move_a_over_b.world.getD t [] = s.world.getD t []) ∧
    s.move_a_over_b.state = s.state ∧ s.move_a_over_b.a = s.a ∧ s.move_a_over_b.b = s.b := by
  have hT := hWF.tidy
  have hlen : s.world.length = n := hWF.len
  have hiw : i < s.world.length := hlen ▸ hi
  have hkw : k < s.world.length := hlen ▸ hk
  have hA_mem : A ∈ s.world.getD i [] := by
    rw [hsa]; exact List.mem_append_right _ (List.mem_cons_self _ _)
  have hB_mem : B ∈ s.world.getD k [] := by
    rw [hsb]; exact List.mem_append_right _ (List.mem_cons_self _ _)
  have hA32 : A < 2 ^ 32 := by omega
  have hB32 : B < 2 ^ 32 := by omega
  have hAn : A < n := mem_stack_lt hT hi hA_mem
  have hBn : B < n := mem_stack_lt hT hk hB_mem
  have hAB : A ≠ B := fun he =>
    (not_mem_other hT.cle hik hiw hkw hA_mem) (by rw [← he] at hB_mem; exact hB_mem)
  have hnostk : ∀ st ∈ s.world, ¬(A ∈ st ∧ B ∈ st) := by
    intro st hst hmem
    obtain ⟨t, htw, hts⟩ := mem_getD_of_mem hst
    have hti : t = i := by
      by_contra hne
      exact (not_mem_other hT.cle (fun h => hne h.symm) hiw htw hA_mem)
        (by rw [hts]; exact hmem.1)
    have htk : t = k := by
      by_contra hne
      exact (not_mem_other hT.cle (fun h => hne h.symm) hkw htw hB_mem)
        (by rw [hts]; exact hmem.2)
    exact hik (by rw [← hti, htk])
  have hpv : s.parameters_invalid = false :=
    (parameters_invalid_false_iff ha hb hA32 hB32).mpr
      ⟨hA31, hB31, hAB, by omega, by omega, hnostk⟩
  obtain ⟨hi31, hielem, hilen⟩ := stack_coords_small hT hWF.high hi hA_mem hA31
  obtain ⟨hk31, hkelem, hklen⟩ := stack_coords_small hT hWF.high hk hB_mem hB31
  have hj31 : pa.length < 2 ^ 31 := by
    have h1 : pa.length < (s.world.getD i []).length := by rw [hsa]; simp
    omega
  have hab : s.get_a_and_b = (u32AsI32 A, u32AsI32 B) := by
    unfold Blocks.get_a_and_b
    rw [ha, hb]
  have hwA := where_is_spec hT.cle hA31 hiw hsa
  have hwB := where_is_spec hT.cle hB31 hkw hsb
  have hconv : ∀ m : Nat, m < 2 ^ 31 → intToUsize (u32AsI32 m) = m := fun m hm => by
    rw [u32AsI32_of_lt hm, intToUsize_ofNat (by omega)]
  have e1 : intToUsize (s.where_is s.get_a_and_b.1).1 = i := by
    rw [hab]
    show intToUsize (s.where_is (u32AsI32 A)).1 = i
    rw [hwA]
    exact hconv i hi31
  have e2 : intToUsize (s.where_is s.get_a_and_b.1).2 = pa.length := by
    rw [hab]
    show intToUsize (s.where_is (u32AsI32 A)).2 = pa.length
    rw [hwA]
    exact hconv pa.length hj31
  have e3 : intToUsize (s.where_is s.get_a_and_b.2).1 = k := by
    rw [hab]
    show intToUsize (s.where_is (u32AsI32 B)).1 = k
    rw [hwB]
    exact hconv k hk31
  have hstack_i : s.world.getD i [] = (pa ++ [A]) ++ qa := by rw [hsa]; simp
  have hhead_i : (s.world.getD i []).head? = some i := by
    rcases hWF.home i hi with hemp | hh
    · rw [hemp] at hsa
      simp at hsa
    · exact hh
  have hheadA : (pa ++ [A]).head? = some i := head_of_stack_decomp hhead_i hsa
  obtain ⟨hT1, hbo1, hw1i, hq1, hf1⟩ :=
    returnBlocks_spec qa n s.world i (pa ++ [A]) hT hi hstack_i hheadA
  have hqalen : (s.world.getD i []).length - pa.length - 1 = qa.length := by
    rw [hsa]
    simp only [List.length_append, List.length_cons]
    omega
  have hk_not_qa : k ∉ qa := by
    intro hkqa
    have hkmem : k ∈ s.world.getD i [] := by
      rw [hsa]; exact List.mem_append_right _ (List.mem_cons_of_mem _ hkqa)
    have hempty := home_stack_empty hT hi hkmem (fun h => hik h.symm)
    rw [hsb] at hempty
    simp at hempty
  have hi_not_qa : i ∉ qa :=
    head_not_mem_suffix (by rw [← hsa]; exact count_le_one_stack hT.cle hiw i)
      (by rw [← hsa]; exact hhead_i)
  have hhead_k : (s.world.getD k []).head? = some k := by
    rcases hWF.home k hk with hemp | hh
    · rw [hemp] at hsb
      simp at hsb
    · exact hh
  have hW1k : (returnBlocks s.world i qa.length).getD k [] = s.world.getD k [] :=
    hf1 k (fun h => hik h.symm) hk_not_qa
  obtain ⟨hT2, hbo2, hw2i, hf2⟩ := pop_top_spec hT1 hi hw1i hheadA
  have hW2k : ((returnBlocks s.world i qa.length).set i pa).getD k [] = s.world.getD k [] := by
    rw [hf2 k (fun h => hik h.symm), hW1k]
  have hstep : s.move_a_over_b = Blocks.mk s.state
      (((returnBlocks s.world i qa.length).set i pa).set k
        ((((returnBlocks s.world i qa.length).set i pa).getD k []) ++ [A])) s.a s.b := by
    unfold Blocks.move_a_over_b
    rw [if_neg (by rw [hpv]; simp)]
    simp only []
    rw [e1, e2, e3]
    rw [show (s.world.getD i []).length - pa.length - 1 = qa.length from hqalen]
    rw [hw1i, List.getLast?_concat, List.dropLast_concat]
    simp only [Option.getD_some]
  have hworld : s.move_a_over_b.world =
      ((returnBlocks s.world i qa.length).set i pa).set k (s.world.getD k [] ++ [A]) := by
    rw [hstep, hW2k]
  have hkW2 : k < ((returnBlocks s.world i qa.length).set i pa).length := by
    rw [hT2.len]; exact hk
  have hfin_i : s.move_a_over_b.world.getD i [] = pa := by
    rw [hworld, getD_set_ne _ k i _ hik, hw2i]
  have hfin_k : s.move_a_over_b.world.getD k [] = s.world.getD k [] ++ [A] := by
    rw [hworld, getD_set_self _ k _ hkW2]
  have hx_qa_ne_i : ∀ x ∈ qa, x ≠ i := fun x hx he => hi_not_qa (he ▸ hx)
  have hqa_sub : ∀ x ∈ qa, x ∈ s.world.getD i [] := by
    intro x hx
    rw [hsa]; exact List.mem_append_right _ (List.mem_cons_of_mem _ hx)
  have hfin_qa : ∀ x ∈ qa, s.move_a_over_b.world.getD x [] = [x] := by
    intro x hx
    have hxk : x ≠ k := fun he => hk_not_qa (he ▸ hx)
    rw [hworld, getD_set_ne _ k x _ hxk, hf2 x (hx_qa_ne_i x hx), hq1 x hx]
  have hfin_frame : ∀ t, t ≠ i → t ≠ k → t ∉ qa →
      s.move_a_over_b.world.getD t [] = s.world.getD t [] := by
    intro t hti htk htqa
    rw [hworld, getD_set_ne _ k t _ htk, hf2 t hti, hf1 t hti htqa]
  have hboW3 : blocksOf (s.move_a_over_b.world) = Multiset.range n := by
    rw [hworld]
    have e5 := blocksOf_set ((returnBlocks s.world i qa.length).set i pa) k
      (s.world.getD k [] ++ [A]) hkW2
    rw [hW2k] at e5
    have hcancel : ∀ u v : Multiset Nat,
        u + ((s.world.getD k [] : List Nat) : Multiset Nat) =
          v + ((s.world.getD k [] ++ [A] : List Nat) : Multiset Nat) → u = v + {A} := by
      intro u v h
      have h2 : u + ((s.world.getD k [] : List Nat) : Multiset Nat) =
          (v + {A}) + ((s.world.getD k [] : List Nat) : Multiset Nat) := by
        rw [h]
        have h3 : ((s.world.getD k [] ++ [A] : List Nat) : Multiset Nat) =
            ((s.world.getD k [] : List Nat) : Multiset Nat) + {A} := by
          rw [← Multiset.coe_singleton A, ← Multiset.coe_add]
        rw [h3]
        abel
      exact add_right_cancel h2
    have e6 := hcancel _ _ e5
    rw [e6, hbo2, hbo1, hWF.conserv]
  have hWF3 : WF n s.move_a_over_b.world := by
    refine ⟨?_, hboW3, ?_, ?_⟩
    · rw [hworld, List.length_set, hT2.len]
    · intro t ht
      by_cases hti : t = i
      · subst hti
        rw [hfin_i]
        cases pa with
        | nil => exact Or.inl rfl
        | cons p0 ps =>
          right
          simpa using hheadA
      · by_cases htk : t = k
        · subst htk
          rw [hfin_k]
          right
          have hheadB2 : (pb ++ B :: qb).head? = some t := by rw [← hsb]; exact hhead_k
          rw [hsb]
          cases pb with
          | nil =>
            have hBk : B = t := by simpa using hheadB2
            simp [hBk]
          | cons p0 ps =>
            have hp0 : p0 = t := by simpa using hheadB2
            simp [hp0]
        · by_cases htqa : t ∈ qa
          · rw [hfin_qa t htqa]
            exact Or.inr rfl
          · rw [hfin_frame t hti htk htqa]
            exact hWF.home t ht
    · intro t ht h31
      have hti : t ≠ i := by omega
      have htk : t ≠ k := by omega
      have htqa : t ∉ qa := fun hmem => by
        have := hielem t (hqa_sub t hmem)
        omega
      rw [hfin_frame t hti htk htqa]
      exact hWF.high t ht h31
  have hfields : s.move_a_over_b.state = s.state ∧ s.move_a_over_b.a = s.a ∧
      s.move_a_over_b.b = s.b := by
    rw [hstep]
    exact ⟨rfl, rfl, rfl⟩
  exact ⟨hWF3, hfin_i, hfin_k, hfin_qa, hfin_frame, hfields⟩

theorem popN_append (pa rest : List Nat) : popN (pa ++ rest) rest.length = pa := by
  rw [popN_eq_take rest.length (pa ++ rest) (by simp)]
  have h1 : (pa ++ rest).length - rest.length = pa.length := by simp
  rw [h1, List.take_left]

/-! ## Execution lemma for `pile_a_onto_b` -/

/-- What a validated `pile a onto b` does: each block above `b` sits
alone on its own stack, stack `k` is cut back to `b` and receives the
whole pile from `a` upward in order, stack `i` keeps only the part below
`a`, nothing else moves, and the world invariant is preserved. -/
theorem pile_a_onto_b_spec {n : Nat} {s : Blocks} {A B i k : Nat} {pa qa pb qb : List Nat}
    (hWF : WF n s.world) (ha : s.a = some A) (hb : s.b = some B)
    (hA31 : A < 2 ^ 31) (hB31 : B < 2 ^ 31)
    (hik : i ≠ k) (hi : i < n) (hk : k < n)
    (hsa : s.world.getD i [] = pa ++ A :: qa)
    (hsb : s.world.getD k [] = pb ++ B :: qb) :
    WF n s.pile_a_onto_b.world ∧
    s.pile_a_onto_b.world.getD i [] = pa ∧
    s.pile_a_onto_b.world.getD k [] = (pb ++ [B]) ++ A :: qa ∧
    (∀ x ∈ qb, s.pile_a_onto_b.world.getD x [] = [x]) ∧
    (∀ t, t ≠ i → t ≠ k → t ∉ qb →
      s.pile_a_onto_b.world.getD t [] = s.world.getD t []) ∧
    s.pile_a_onto_b.state = s.state ∧ s.pile_a_onto_b.a = s.a ∧ s.pile_a_onto_b.b = s.b := by
  have hT := hWF.tidy
  have hlen : s.world.length = n := hWF.len
  have hiw : i < s.world.length := hlen ▸ hi
  have hkw : k < s.world.length := hlen ▸ hk
  have hA_mem : A ∈ s.world.getD i [] := by
    rw [hsa]; exact List.mem_append_right _ (List.mem_cons_self _ _)
  have hB_mem : B ∈ s.world.getD k [] := by
    rw [hsb]; exact List.mem_append_right _ (List.mem_cons_self _ _)
  have hA32 : A < 2 ^ 32 := by omega
  have hB32 : B < 2 ^ 32 := by omega
  have hAn : A < n := mem_stack_lt hT hi hA_mem
  have hBn : B < n := mem_stack_lt hT hk hB_mem
  have hAB : A ≠ B := fun he =>
    (not_mem_other hT.cle hik hiw hkw hA_mem) (by rw [← he] at hB_mem; exact hB_mem)
  have hnostk : ∀ st ∈ s.world, ¬(A ∈ st ∧ B ∈ st) := by
    intro st hst hmem
    obtain ⟨t, htw, hts⟩ := mem_getD_of_mem hst
    have hti : t = i := by
      by_contra hne
      exact (not_mem_other hT.cle (fun h => hne h.symm) hiw htw hA_mem)
        (by rw [hts]; exact hmem.1)
    have htk : t = k := by
      by_contra hne
      exact (not_mem_other hT.cle (fun h => hne h.symm) hkw htw hB_mem)
        (by rw [hts]; exact hmem.2)
    exact hik (by rw [← hti, htk])
  have hpv : s.parameters_invalid = false :=
    (parameters_invalid_false_iff ha hb hA32 hB32).mpr
      ⟨hA31, hB31, hAB, by omega, by omega, hnostk⟩
  obtain ⟨hi31, hielem, hilen⟩ := stack_coords_small hT hWF.high hi hA_mem hA31
  obtain ⟨hk31, hkelem, hklen⟩ := stack_coords_small hT hWF.high hk hB_mem hB31
  have hj31 : pa.length < 2 ^ 31 := by
    have h1 : pa.length < (s.world.getD i []).length := by rw [hsa]; simp
    omega
  have hl31 : pb.length < 2 ^ 31 := by
    have h1 : pb.length < (s.world.getD k []).length := by rw [hsb]; simp
    omega
  have hab : s.get_a_and_b = (u32AsI32 A, u32AsI32 B) := by
    unfold Blocks.get_a_and_b
    rw [ha, hb]
  have hwA := where_is_spec hT.cle hA31 hiw hsa
  have hwB := where_is_spec hT.cle hB31 hkw hsb
  have hconv : ∀ m : Nat, m < 2 ^ 31 → intToUsize (u32AsI32 m) = m := fun m hm => by
    rw [u32AsI32_of_lt hm, intToUsize_ofNat (by omega)]
  have e1 : intToUsize (s.where_is s.get_a_and_b.1).1 = i := by
    rw [hab]
    show intToUsize (s.where_is (u32AsI32 A)).1 = i
    rw [hwA]
    exact hconv i hi31
  have e2 : intToUsize (s.where_is s.get_a_and_b.1).2 = pa.length := by
    rw [hab]
    show intToUsize (s.where_is (u32AsI32 A)).2 = pa.length
    rw [hwA]
    exact hconv pa.length hj31
  have e3 : intToUsize (s.where_is s.get_a_and_b.2).1 = k := by
    rw [hab]
    show intToUsize (s.where_is (u32AsI32 B)).1 = k
    rw [hwB]
    exact hconv k hk31
  have e4 : intToUsize (s.where_is s.get_a_and_b.2).2 = pb.length := by
    rw [hab]
    show intToUsize (s.where_is (u32AsI32 B)).2 = pb.length
    rw [hwB]
    exact hconv pb.length hl31
  have hhead_i : (s.world.getD i []).head? = some i := by
    rcases hWF.home i hi with hemp | hh
    · rw [hemp] at hsa
      simp at hsa
    · exact hh
  have hheadA : (pa ++ [A]).head? = some i := head_of_stack_decomp hhead_i hsa
  have hhead_k : (s.world.getD k []).head? = some k := by
    rcases hWF.home k hk with hemp | hh
    · rw [hemp] at hsb
      simp at hsb
    · exact hh
  have hheadB : (pb ++ [B]).head? = some k := head_of_stack_decomp hhead_k hsb
  have hstack_k : s.world.getD k [] = (pb ++ [B]) ++ qb := by rw [hsb]; simp
  obtain ⟨hT1, hbo1, hw1k, hq1, hf1⟩ :=
    returnBlocks_spec qb n s.world k (pb ++ [B]) hT hk hstack_k hheadB
  have hqblen : (s.world.getD k []).length - pb.length - 1 = qb.length := by
    rw [hsb]
    simp only [List.length_append, List.length_cons]
    omega
  have hi_not_qb : i ∉ qb := by
    intro hiqb
    have himem : i ∈ s.world.getD k [] := by
      rw [hsb]; exact List.mem_append_right _ (List.mem_cons_of_mem _ hiqb)
    have hempty := home_stack_empty hT hk himem hik
    rw [hsa] at hempty
    simp at hempty
  have hk_not_qb : k ∉ qb :=
    head_not_mem_suffix (by rw [← hsb]; exact count_le_one_stack hT.cle hkw k)
      (by rw [← hsb]; exact hhead_k)
  have hW1i : (returnBlocks s.world k qb.length).getD i [] = s.world.getD i [] :=
    hf1 i hik hi_not_qb
  have hiW1 : i < (returnBlocks s.world k qb.length).length := by
    rw [hT1.len]; exact hi
  have hstep : s.pile_a_onto_b = Blocks.mk s.state
      (((returnBlocks s.world k qb.length).set i pa).set k
        ((((returnBlocks s.world k qb.length).set i pa).getD k []) ++ A :: qa)) s.a s.b := by
    unfold Blocks.pile_a_onto_b
    rw [if_neg (by rw [hpv]; simp)]
    simp only []
    rw [e1, e2, e3, e4]
    rw [show (s.world.getD k []).length - pb.length - 1 = qb.length from hqblen]
    rw [hW1i, hsa, List.drop_left, popN_append]
  have hW2k : ((returnBlocks s.world k qb.length).set i pa).getD k [] = pb ++ [B] := by
    rw [getD_set_ne _ i k _ (fun h => hik h.symm), hw1k]
  have hworld : s.pile_a_onto_b.world =
      ((returnBlocks s.world k qb.length).set i pa).set k ((pb ++ [B]) ++ A :: qa) := by
    rw [hstep, hW2k]
  have hkW2 : k < ((returnBlocks s.world k qb.length).set i pa).length := by
    rw [List.length_set, hT1.len]; exact hk
  have hfin_i : s.pile_a_onto_b.world.getD i [] = pa := by
    rw [hworld, getD_set_ne _ k i _ hik, getD_set_self _ i _ hiW1]
  have hfin_k : s.pile_a_onto_b.world.getD k [] = (pb ++ [B]) ++ A :: qa := by
    rw [hworld, getD_set_self _ k _ hkW2]
  have hqb_sub : ∀ x ∈ qb, x ∈ s.world.getD k [] := by
    intro x hx
    rw [hsb]; exact List.mem_append_right _ (List.mem_cons_of_mem _ hx)
  have hfin_qb : ∀ x ∈ qb, s.pile_a_onto_b.world.getD x [] = [x] := by
    intro x hx
    have hxk : x ≠ k := fun he => hk_not_qb (he ▸ hx)
    have hxi : x ≠ i := fun he => hi_not_qb (he ▸ hx)
    rw [hworld, getD_set_ne _ k x _ hxk, getD_set_ne _ i x _ hxi, hq1 x hx]
  have hfin_frame : ∀ t, t ≠ i → t ≠ k → t ∉ qb →
      s.pile_a_onto_b.world.getD t [] = s.world.getD t [] := by
    intro t hti htk htqb
    rw [hworld, getD_set_ne _ k t _ htk, getD_set_ne _ i t _ hti, hf1 t htk htqb]
  have hboW3 : blocksOf (s.pile_a_onto_b.world) = Multiset.range n := by
    rw [hworld]
    have ei := blocksOf_set (returnBlocks s.world k qb.length) i pa hiW1
    rw [hW1i, hsa] at ei
    have ek := blocksOf_set ((returnBlocks s.world k qb.length).set i pa) k
      ((pb ++ [B]) ++ A :: qa) hkW2
    rw [hW2k] at ek
    have hc2 : ∀ u v : Multiset Nat,
        u + ((pb ++ [B] : List Nat) : Multiset Nat) =
          v + (((pb ++ [B]) ++ A :: qa : List Nat) : Multiset Nat) →
        u = v + ((A :: qa : List Nat) : Multiset Nat) := by
      intro u v h
      have h2 : u + ((pb ++ [B] : List Nat) : Multiset Nat) =
          (v + ((A :: qa : List Nat) : Multiset Nat)) +
            ((pb ++ [B] : List Nat) : Multiset Nat) := by
        rw [h, ← Multiset.coe_add]
        abel
      exact add_right_cancel h2
    have hc1 : ∀ u v : Multiset Nat,
        u + ((pa ++ A :: qa : List Nat) : Multiset Nat) =
          v + ((pa : List Nat) : Multiset Nat) →
        u + ((A :: qa : List Nat) : Multiset Nat) = v := by
      intro u v h
      have h2 : (u + ((A :: qa : List Nat) : Multiset Nat)) +
          ((pa : List Nat) : Multiset Nat) = v + ((pa : List Nat) : Multiset Nat) := by
        rw [← h, ← Multiset.coe_add]
        abel
      exact add_right_cancel h2
    rw [hc2 _ _ ek, hc1 _ _ ei, hbo1, hWF.conserv]
  have hWF3 : WF n s.pile_a_onto_b.world := by
    refine ⟨?_, hboW3, ?_, ?_⟩
    · rw [hworld, List.length_set, List.length_set, hT1.len]
    · intro t ht
      by_cases hti : t = i
      · subst hti
        rw [hfin_i]
        cases pa with
        | nil => exact Or.inl rfl
        | cons p0 ps =>
          right
          simpa using hheadA
      · by_cases htk : t = k
        · subst htk
          rw [hfin_k]
          right
          cases pb with
          | nil =>
            have hBk : B = t := by simpa using hheadB
            simp [hBk]
          | cons p0 ps =>
            have hp0 : p0 = t := by simpa using hheadB
            simp [hp0]
        · by_cases htqb : t ∈ qb
          · rw [hfin_qb t htqb]
            exact Or.inr rfl
          · rw [hfin_frame t hti htk htqb]
            exact hWF.home t ht
    · intro t ht h31
      have hti : t ≠ i := by omega
      have htk : t ≠ k := by omega
      have htqb : t ∉ qb := fun hmem => by
        have := hkelem t (hqb_sub t hmem)
        omega
      rw [hfin_frame t hti htk htqb]
      exact hWF.high t ht h31
  have hfields : s.pile_a_onto_b.state = s.state ∧ s.pile_a_onto_b.a = s.a ∧
      s.pile_a_onto_b.b = s.b := by
    rw [hstep]
    exact ⟨rfl, rfl, rfl⟩
  exact ⟨hWF3, hfin_i, hfin_k, hfin_qb, hfin_frame, hfields⟩

/-! ## Execution lemma for `pile_a_over_b` -/

/-- What a validated `pile a over b` does: the whole pile from `a`
upward moves, in order, to the top of stack `k` without disturbing it,
stack `i` keeps only the part below `a`, nothing else moves, and the
world invariant is preserved. -/
theorem pile_a_over_b_spec {n : Nat} {s : Blocks} {A B i k : Nat} {pa qa pb qb : List Nat}
    (hWF : WF n s.world) (ha : s.a = some A) (hb : s.b = some B)
    (hA31 : A < 2 ^ 31) (hB31 : B < 2 ^ 31)
    (hik : i ≠ k) (hi : i < n) (hk : k < n)
    (hsa : s.world.getD i [] = pa ++ A :: qa)
    (hsb : s.world.getD k [] = pb ++ B :: qb) :
    WF n s.pile_a_over_b.world ∧
    s.pile_a_over_b.world.getD i [] = pa ∧
    s.pile_a_over_b.world.getD k [] = s.world.getD k [] ++ A :: qa ∧
    (∀ t, t ≠ i → t ≠ k → s.pile_a_over_b.world.getD t [] = s.world.getD t []) ∧
    s.pile_a_over_b.state = s.state ∧ s.pile_a_over_b.a = s.a ∧ s.pile_a_over_b.b = s.b := by
  have hT := hWF.tidy
  have hlen : s.world.length = n := hWF.len
  have hiw : i < s.world.length := hlen ▸ hi
  have hkw : k < s.world.length := hlen ▸ hk
  have hA_mem : A ∈ s.world.getD i [] := by
    rw [hsa]; exact List.mem_append_right _ (List.mem_cons_self _ _)
  have hB_mem : B ∈ s.world.getD k [] := by
    rw [hsb]; exact List.mem_append_right _ (List.mem_cons_self _ _)
  have hA32 : A < 2 ^ 32 := by omega
  have hB32 : B < 2 ^ 32 := by omega
  have hAn : A < n := mem_stack_lt hT hi hA_mem
  have hBn : B < n := mem_stack_lt hT hk hB_mem
  have hAB : A ≠ B := fun he =>
    (not_mem_other hT.cle hik hiw hkw hA_mem) (by rw [← he] at hB_mem; exact hB_mem)
  have hnostk : ∀ st ∈ s.world, ¬(A ∈ st ∧ B ∈ st) := by
    intro st hst hmem
    obtain ⟨t, htw, hts⟩ := mem_getD_of_mem hst
    have hti : t = i := by
      by_contra hne
      exact (not_mem_other hT.cle (fun h => hne h.symm) hiw htw hA_mem)
        (by rw [hts]; exact hmem.1)
    have htk : t = k := by
      by_contra hne
      exact (not_mem_other hT.cle (fun h => hne h.symm) hkw htw hB_mem)
        (by rw [hts]; exact hmem.2)
    exact hik (by rw [← hti, htk])
  have hpv : s.parameters_invalid = false :=
    (parameters_invalid_false_iff ha hb hA32 hB32).mpr
      ⟨hA31, hB31, hAB, by omega, by omega, hnostk⟩
  obtain ⟨hi31, hielem, hilen⟩ := stack_coords_small hT hWF.high hi hA_mem hA31
  obtain ⟨hk31, hkelem, hklen⟩ := stack_coords_small hT hWF.high hk hB_mem hB31
  have hj31 : pa.length < 2 ^ 31 := by
    have h1 : pa.length < (s.world.getD i []).length := by rw [hsa]; simp
    omega
  have hab : s.get_a_and_b = (u32AsI32 A, u32AsI32 B) := by
    unfold Blocks.get_a_and_b
    rw [ha, hb]
  have hwA := where_is_spec hT.cle hA31 hiw hsa
  have hwB := where_is_spec hT.cle hB31 hkw hsb
  have hconv : ∀ m : Nat, m < 2 ^ 31 → intToUsize (u32AsI32 m) = m := fun m hm => by
    rw [u32AsI32_of_lt hm, intToUsize_ofNat (by omega)]
  have e1 : intToUsize (s.where_is s.get_a_and_b.1).1 = i := by
    rw [hab]
    show intToUsize (s.where_is (u32AsI32 A)).1 = i
    rw [hwA]
    exact hconv i hi31
  have e2 : intToUsize (s.where_is s.get_a_and_b.1).2 = pa.length := by
    rw [hab]
    show intToUsize (s.where_is (u32AsI32 A)).2 = pa.length
    rw [hwA]
    exact hconv pa.length hj31
  have e3 : intToUsize (s.where_is s.get_a_and_b.2).1 = k := by
    rw [hab]
    show intToUsize (s.where_is (u32AsI32 B)).1 = k
    rw [hwB]
    exact hconv k hk31
  have hhead_i : (s.world.getD i []).head? = some i := by
    rcases hWF.home i hi with hemp | hh
    · rw [hemp] at hsa
      simp at hsa
    · exact hh
  have hheadA : (pa ++ [A]).head? = some i := head_of_stack_decomp hhead_i hsa
  have hhead_k : (s.world.getD k []).head? = some k := by
    rcases hWF.home k hk with hemp | hh
    · rw [hemp] at hsb
      simp at hsb
    · exact hh
  have hstep : s.pile_a_over_b = Blocks.mk s.state
      ((s.world.set i pa).set k (((s.world.set i pa).getD k []) ++ A :: qa)) s.a s.b := by
    unfold Blocks.pile_a_over_b
    rw [if_neg (by rw [hpv]; simp)]
    simp only []
    rw [e1, e2, e3]
    rw [hsa, List.drop_left, popN_append]
  have hW1k : (s.world.set i pa).getD k [] = s.world.getD k [] :=
    getD_set_ne _ i k _ (fun h => hik h.symm)
  have hworld : s.pile_a_over_b.world =
      (s.world.set i pa).set k (s.world.getD k [] ++ A :: qa) := by
    rw [hstep, hW1k]
  have hkW1 : k < (s.world.set i pa).length := by
    rw [List.length_set]; exact hkw
  have hfin_i : s.pile_a_over_b.world.getD i [] = pa := by
    rw [hworld, getD_set_ne _ k i _ hik, getD_set_self _ i _ hiw]
  have hfin_k : s.pile_a_over_b.world.getD k [] = s.world.getD k [] ++ A :: qa := by
    rw [hworld, getD_set_self _ k _ hkW1]
  have hfin_frame : ∀ t, t ≠ i → t ≠ k →
      s.pile_a_over_b.world.getD t [] = s.world.getD t [] := by
    intro t hti htk
    rw [hworld, getD_set_ne _ k t _ htk, getD_set_ne _ i t _ hti]
  have hboW2 : blocksOf (s.pile_a_over_b.world) = Multiset.range n := by
    rw [hworld]
    have ei := blocksOf_set s.world i pa hiw
    rw [hsa] at ei
    have ek := blocksOf_set (s.world.set i pa) k
      (s.world.getD k [] ++ A :: qa) hkW1
    rw [hW1k] at ek
    have hc2 : ∀ u v : Multiset Nat,
        u + ((s.world.getD k [] : List Nat) : Multiset Nat) =
          v + ((s.world.getD k [] ++ A :: qa : List Nat) : Multiset Nat) →
        u = v + ((A :: qa : List Nat) : Multiset Nat) := by
      intro u v h
      have h2 : u + ((s.world.getD k [] : List Nat) : Multiset Nat) =
          (v + ((A :: qa : List Nat) : Multiset Nat)) +
            ((s.world.getD k [] : List Nat) : Multiset Nat) := by
        rw [h, ← Multiset.coe_add]
        abel
      exact add_right_cancel h2
    have hc1 : ∀ u v : Multiset Nat,
        u + ((pa ++ A :: qa : List Nat) : Multiset Nat) =
          v + ((pa : List Nat) : Multiset Nat) →
        u + ((A :: qa : List Nat) : Multiset Nat) = v := by
      intro u v h
      have h2 : (u + ((A :: qa : List Nat) : Multiset Nat)) +
          ((pa : List Nat) : Multiset Nat) = v + ((pa : List Nat) : Multiset Nat) := by
        rw [← h, ← Multiset.coe_add]
        abel
      exact add_right_cancel h2
    rw [hc2 _ _ ek, hc1 _ _ ei, hWF.conserv]
  have hWF2 : WF n s.pile_a_over_b.world := by
    refine ⟨?_, hboW2, ?_, ?_⟩
    · rw [hworld, List.length_set, List.length_set, hlen]
    · intro t ht
      by_cases hti : t = i
      · subst hti
        rw [hfin_i]
        cases pa with
        | nil => exact Or.inl rfl
        | cons p0 ps =>
          right
          simpa using hheadA
      · by_cases htk : t = k
        · subst htk
          rw [hfin_k]
          right
          have hheadB2 : (pb ++ B :: qb).head? = some t := by rw [← hsb]; exact hhead_k
          rw [hsb]
          cases pb with
          | nil =>
            have hBk : B = t := by simpa using hheadB2
            simp [hBk]
          | cons p0 ps =>
            have hp0 : p0 = t := by simpa using hheadB2
            simp [hp0]
        · rw [hfin_frame t hti htk]
          exact hWF.home t ht
    · intro t ht h31
      have hti : t ≠ i := by omega
      have htk : t ≠ k := by omega
      rw [hfin_frame t hti htk]
      exact hWF.high t ht h31
  have hfields : s.pile_a_over_b.state = s.state ∧ s.pile_a_over_b.a = s.a ∧
      s.pile_a_over_b.b = s.b := by
    rw [hstep]
    exact ⟨rfl, rfl, rfl⟩
  exact ⟨hWF2, hfin_i, hfin_k, hfin_frame, hfields⟩

/-! ## From a passing validation to the stack decompositions -/

theorem valid_elim {n : Nat} {s : Blocks} {A B : Nat}
    (hWF : WF n s.world) (ha : s.a = some A) (hb : s.b = some B)
    (hA32 : A < 2 ^ 32) (hB32 : B < 2 ^ 32)
    (hpv : s.parameters_invalid = false) :
    A < 2 ^ 31 ∧ B < 2 ^ 31 ∧
    ∃ i k pa qa pb qb, i ≠ k ∧ i < n ∧ k < n ∧
      s.world.getD i [] = pa ++ A :: qa ∧ s.world.getD k [] = pb ++ B :: qb := by
  obtain ⟨hA31, hB31, hAB, hAl, hBl, hno⟩ :=
    (parameters_invalid_false_iff ha hb hA32 hB32).mp hpv
  have hlen := hWF.len
  have hAmem : A ∈ blocksOf s.world := by
    rw [hWF.conserv, Multiset.mem_range]
    omega
  obtain ⟨i, hiw, hAi⟩ := mem_blocksOf_iff.mp hAmem
  have hBmem : B ∈ blocksOf s.world := by
    rw [hWF.conserv, Multiset.mem_range]
    omega
  obtain ⟨k, hkw, hBk⟩ := mem_blocksOf_iff.mp hBmem
  have hik : i ≠ k := by
    intro he
    subst he
    obtain ⟨st, hst1, hst2⟩ := getD_eq_of_lt s.world i hiw
    exact hno st hst2 ⟨hst1 ▸ hAi, hst1 ▸ hBk⟩
  obtain ⟨pa, qa, hpa⟩ := List.append_of_mem hAi
  obtain ⟨pb, qb, hpb⟩ := List.append_of_mem hBk
  exact ⟨hA31, hB31, i, k, pa, qa, pb, qb, hik, by omega, by omega, hpa, hpb⟩

/-! ## The invariant holds in every reachable state -/

theorem blocksOf_singletons (l : List Nat) :
    blocksOf (l.map (fun x => [x])) = (l : Multiset Nat) := by
  induction l with
  | nil => rfl
  | cons hd tl ih =>
    simp only [List.map_cons, blocksOf_cons, ih]
    rw [show (([hd] : List Nat) : Multiset Nat) = {hd} from rfl,
      Multiset.singleton_add, Multiset.cons_coe]

theorem getD_map_singleton_range {n i : Nat} (hi : i < n) :
    ((List.range n).map (fun x => [x])).getD i [] = [i] := by
  rw [List.getD_eq_getElem?_getD, List.getElem?_map, List.getElem?_range hi]
  rfl

theorem WF_new (n : Nat) (_hn : 1 ≤ n) :
    WF n ((List.range n).map (fun x => [x])) := by
  refine ⟨?_, ?_, ?_, ?_⟩
  · simp
  · rw [blocksOf_singletons]
    rfl
  · intro i hi
    rw [getD_map_singleton_range hi]
    exact Or.inr rfl
  · intro i hi _
    exact getD_map_singleton_range hi

/-- Master invariant of the dispatch loop: every reachable `Blocks`
state is between instructions (`Init`, no pending operands) and its
world satisfies the conservation, home-bottom and high-stack laws. -/
theorem reach_inv {n : Nat} {s : Blocks} (h : Reach n s) :
    s.state = BlockState.Init ∧ s.a = none ∧ s.b = none ∧ WF n s.world := by
  induction h with
  | init s hnew =>
    unfold Blocks.new at hnew
    split at hnew
    · simp at hnew
    · next hn1 =>
      injection hnew with heq
      subst heq
      exact ⟨rfl, rfl, rfl, WF_new n (by omega)⟩
  | step s c hR ih =>
    obtain ⟨hst, ha, hb, hWF⟩ := ih
    rcases c with ⟨msg, cst, cfrom, cto, ca, cb⟩
    cases cst
    case Do =>
      rcases s with ⟨sst, w, sa, sb⟩
      simp only at hst ha hb
      subst hst
      subst ha
      subst hb
      simp only at hWF
      cases cfrom <;> cases cto
      case Move.Onto =>
        have hd : Robot.dispatch (Blocks.mk BlockState.Init w none none)
            (Command.mk msg CommandState.Do CommandState.Move CommandState.Onto ca cb) =
            (Blocks.mk BlockState.Move w (some (intAsU32 ca))
              (some (intAsU32 cb))).move_a_onto_b.reset_state := rfl
        rw [hd]
        refine ⟨rfl, rfl, rfl, ?_⟩
        cases hpv : (Blocks.mk BlockState.Move w (some (intAsU32 ca))
            (some (intAsU32 cb))).parameters_invalid with
        | true =>
          have hinv : (Blocks.mk BlockState.Move w (some (intAsU32 ca))
              (some (intAsU32 cb))).move_a_onto_b =
              (Blocks.mk BlockState.Move w (some (intAsU32 ca))
                (some (intAsU32 cb))).reset_state := by
            unfold Blocks.move_a_onto_b
            rw [if_pos hpv]
          rw [hinv]
          exact hWF
        | false =>
          obtain ⟨hA31, hB31, i, k, pa, qa, pb, qb, hik, hi, hk, hpa, hpb⟩ :=
            valid_elim hWF rfl rfl (intAsU32_lt ca) (intAsU32_lt cb) hpv
          exact (move_a_onto_b_spec hWF rfl rfl hA31 hB31 hik hi hk hpa hpb).1
      case Move.Over =>
        have hd : Robot.dispatch (Blocks.mk BlockState.Init w none none)
            (Command.mk msg CommandState.Do CommandState.Move CommandState.Over ca cb) =
            (Blocks.mk BlockState.Move w (some (intAsU32 ca))
              (some (intAsU32 cb))).move_a_over_b.reset_state := rfl
        rw [hd]
        refine ⟨rfl, rfl, rfl, ?_⟩
        cases hpv : (Blocks.mk BlockState.Move w (some (intAsU32 ca))
            (some (intAsU32 cb))).parameters_invalid with
        | true =>
          have hinv : (Blocks.mk BlockState.Move w (some (intAsU32 ca))
              (some (intAsU32 cb))).move_a_over_b =
              (Blocks.mk BlockState.Move w (some (intAsU32 ca))
                (some (intAsU32 cb))).reset_state := by
            unfold Blocks.move_a_over_b
            rw [if_pos hpv]
          rw [hinv]
          exact hWF
        | false =>
          obtain ⟨hA31, hB31, i, k, pa, qa, pb, qb, hik, hi, hk, hpa, hpb⟩ :=
            valid_elim hWF rfl rfl (intAsU32_lt ca) (intAsU32_lt cb) hpv
          exact (move_a_over_b_spec hWF rfl rfl hA31 hB31 hik hi hk hpa hpb).1
      case Pile.Onto =>
        have hd : Robot.dispatch (Blocks.mk BlockState.Init w none none)
            (Command.mk msg CommandState.Do CommandState.Pile CommandState.Onto ca cb) =
            (Blocks.mk BlockState.Pile w (some (intAsU32 ca))
              (some (intAsU32 cb))).pile_a_onto_b.reset_state := rfl
        rw [hd]
        refine ⟨rfl, rfl, rfl, ?_⟩
        cases hpv : (Blocks.mk BlockState.Pile w (some (intAsU32 ca))
            (some (intAsU32 cb))).parameters_invalid with
        | true =>
          have hinv : (Blocks.mk BlockState.Pile w (some (intAsU32 ca))
              (some (intAsU32 cb))).pile_a_onto_b =
              (Blocks.mk BlockState.Pile w (some (intAsU32 ca))
                (some (intAsU32 cb))).reset_state := by
            unfold Blocks.pile_a_onto_b
            rw [if_pos hpv]
          rw [hinv]
          exact hWF
        | false =>
          obtain ⟨hA31, hB31, i, k, pa, qa, pb, qb, hik, hi, hk, hpa, hpb⟩ :=
            valid_elim hWF rfl rfl (intAsU32_lt ca) (intAsU32_lt cb) hpv
          exact (pile_a_onto_b_spec hWF rfl rfl hA31 hB31 hik hi hk hpa hpb).1
      case Pile.Over =>
        have hd : Robot.dispatch (Blocks.mk BlockState.Init w none none)
            (Command.mk msg CommandState.Do CommandState.Pile CommandState.Over ca cb) =
            (Blocks.mk BlockState.Pile w (some (intAsU32 ca))
              (some (intAsU32 cb))).pile_a_over_b.reset_state := rfl
        rw [hd]
        refine ⟨rfl, rfl, rfl, ?_⟩
        cases hpv : (Blocks.mk BlockState.Pile w (some (intAsU32 ca))
            (some (intAsU32 cb))).parameters_invalid with
        | true =>
          have hinv : (Blocks.mk BlockState.Pile w (some (intAsU32 ca))
              (some (intAsU32 cb))).pile_a_over_b =
              (Blocks.mk BlockState.Pile w (some (intAsU32 ca))
                (some (intAsU32 cb))).reset_state := by
            unfold Blocks.pile_a_over_b
            rw [if_pos hpv]
          rw [hinv]
          exact hWF
        | false =>
          obtain ⟨hA31, hB31, i, k, pa, qa, pb, qb, hik, hi, hk, hpa, hpb⟩ :=
            valid_elim hWF rfl rfl (intAsU32_lt ca) (intAsU32_lt cb) hpv
          exact (pile_a_over_b_spec hWF rfl rfl hA31 hB31 hik hi hk hpa hpb).1
      all_goals exact ⟨rfl, rfl, rfl, hWF⟩
    all_goals exact ⟨hst, ha, hb, hWF⟩

/-! ## Claim theorems -/

theorem count_blocksOf (w : List (List Nat)) (x : Nat) :
    (blocksOf w).count x = (w.map (fun st => st.count x)).sum := by
  induction w with
  | nil => rfl
  | cons hd tl ih =>
    simp only [blocksOf_cons, Multiset.count_add, Multiset.coe_count, List.map_cons,
      List.sum_cons, ih]

/-- C3: block conservation. In every state reachable from
`Blocks::new n` (for any command sequence, including print, errors and
invalid no-ops), the world still has exactly `n` stacks and every block
identifier below `n` occurs in the stacks with total multiplicity one,
while nothing else occurs at all. -/
theorem claim3_conservation (n : Nat) (s : Blocks) (hR : Reach n s) :
    s.world.length = n ∧
    ∀ x : Nat, (s.world.map (fun st => st.count x)).sum = if x < n then 1 else 0 := by
  obtain ⟨_, _, _, hWF⟩ := reach_inv hR
  refine ⟨hWF.len, fun x => ?_⟩
  rw [← count_blocksOf, hWF.conserv, count_range_eq]

/-- C3 witness at a concrete reachable state. -/
theorem claim3_conservation_witness :
    (Robot.new 3).world.length = 3 ∧
    ((Robot.new 3).world.map (fun st => st.count 1)).sum = 1 :=
  ⟨(claim3_conservation 3 (Robot.new 3) (Reach.init (Robot.new 3) rfl)).1,
   ((claim3_conservation 3 (Robot.new 3) (Reach.init (Robot.new 3) rfl)).2 1).trans
     (by decide)⟩

/-- C10: the implicit home-stack bottom invariant. In every reachable
state, a nonempty stack `i` has block `i` at its bottom, and a block
sitting in a foreign stack has an empty home stack — so a block returned
"to its own stack" always lands alone. -/
theorem claim10_home_bottom (n : Nat) (s : Blocks) (hR : Reach n s) :
    (∀ i, i < n → s.world.getD i [] ≠ [] → (s.world.getD i []).head? = some i) ∧
    (∀ i x, i < n → x ∈ s.world.getD i [] → x ≠ i → s.world.getD x [] = []) := by
  obtain ⟨_, _, _, hWF⟩ := reach_inv hR
  constructor
  · intro i hi hne
    rcases hWF.home i hi with hemp | hh
    · exact absurd hemp hne
    · exact hh
  · intro i x hi hx hxi
    exact home_stack_empty hWF.tidy hi hx hxi

/-- C10 witness: after `move 1 onto 2` from `new 3`, stack 2 = `[2, 1]`
has its own index at the bottom, and block 1's home stack is empty. -/
theorem claim10_home_bottom_witness :
    ((Robot.dispatch (Robot.new 3) (Command.parse "move 1 onto 2")).world.getD 2 []).head?
      = some 2 ∧
    (Robot.dispatch (Robot.new 3) (Command.parse "move 1 onto 2")).world.getD 1 [] = [] :=
  ⟨(claim10_home_bottom 3 _
      (Reach.step (Robot.new 3) (Command.parse "move 1 onto 2")
        (Reach.init (Robot.new 3) rfl))).1 2 (by decide) (by decide),
   (claim10_home_bottom 3 _
      (Reach.step (Robot.new 3) (Command.parse "move 1 onto 2")
        (Reach.init (Robot.new 3) rfl))).2 2 1 (by decide) (by decide) (by decide)⟩

/-- C8: pending-operation clearing. A verb call on a non-`Init` state
resets everything (world untouched), and a completion call always ends
in the no-pending state `Init` with both operands `None` — whether it
executed, failed validation, or arrived with nothing pending. -/
theorem claim8_pending_reset (s : Blocks) (x : Nat) :
    (s.state ≠ BlockState.Init →
      s.move_a x = Blocks.mk BlockState.Init s.world none none ∧
      s.pile_a x = Blocks.mk BlockState.Init s.world none none) ∧
    ((s.onto_b x).state = BlockState.Init ∧ (s.onto_b x).a = none ∧
      (s.onto_b x).b = none) ∧
    ((s.over_b x).state = BlockState.Init ∧ (s.over_b x).a = none ∧
      (s.over_b x).b = none) ∧
    (s.state = BlockState.Init →
      s.onto_b x = Blocks.mk BlockState.Init s.world none none ∧
      s.over_b x = Blocks.mk BlockState.Init s.world none none) := by
  rcases s with ⟨sst, w, sa, sb⟩
  cases sst
  case Init =>
    exact ⟨fun h => absurd rfl h, ⟨rfl, rfl, rfl⟩, ⟨rfl, rfl, rfl⟩, fun _ => ⟨rfl, rfl⟩⟩
  case Move =>
    exact ⟨fun _ => ⟨rfl, rfl⟩, ⟨rfl, rfl, rfl⟩, ⟨rfl, rfl, rfl⟩, fun h => by cases h⟩
  case Pile =>
    exact ⟨fun _ => ⟨rfl, rfl⟩, ⟨rfl, rfl, rfl⟩, ⟨rfl, rfl, rfl⟩, fun h => by cases h⟩

/-- C8 witness: a second verb while a move is pending resets, and a
completion ends with nothing pending. -/
theorem claim8_pending_reset_witness :
    ((Robot.new 3).move_a 1).move_a 2 =
      Blocks.mk BlockState.Init ((Robot.new 3).move_a 1).world none none ∧
    ((((Robot.new 3).move_a 1).onto_b 2).state = BlockState.Init ∧
      (((Robot.new 3).move_a 1).onto_b 2).a = none ∧
      (((Robot.new 3).move_a 1).onto_b 2).b = none) :=
  ⟨((claim8_pending_reset ((Robot.new 3).move_a 1) 2).1 (by decide)).1,
   (claim8_pending_reset ((Robot.new 3).move_a 1) 2).2.1⟩

/-- C9: print is pure. Dispatching a `Print` command leaves the `Blocks`
state exactly as it was, and any number of repeated prints yield the
same dump. -/
theorem claim9_print_pure (s : Blocks) (c : Command)
    (hc : c.state = CommandState.Print) :
    Robot.dispatch s c = s ∧
    ∀ m : Nat, Blocks.print ((fun t => Robot.dispatch t c)^[m] s) = Blocks.print s := by
  have h1 : Robot.dispatch s c = s := by
    rcases c with ⟨msg, cst, cf, ct, ca, cb⟩
    simp only at hc
    subst hc
    rfl
  refine ⟨h1, fun m => ?_⟩
  rw [Function.iterate_fixed h1 m]

/-- C9 witness: one and five prints from a concrete state. -/
theorem claim9_print_pure_witness :
    Robot.dispatch (Robot.new 3) (Command.parse "print") = Robot.new 3 ∧
    Blocks.print ((fun t => Robot.dispatch t (Command.parse "print"))^[5] (Robot.new 3)) =
      Blocks.print (Robot.new 3) :=
  ⟨(claim9_print_pure (Robot.new 3) (Command.parse "print") (by decide)).1,
   (claim9_print_pure (Robot.new 3) (Command.parse "print") (by decide)).2 5⟩

/-! ## Invalid parameters are silent no-ops -/

theorem move_a_onto_b_invalid {w : List (List Nat)} {oa ob : Option Nat} {st : BlockState}
    (h : (Blocks.mk st w oa ob).parameters_invalid = true) :
    ((Blocks.mk st w oa ob).move_a_onto_b).world = w := by
  unfold Blocks.move_a_onto_b
  rw [if_pos h]
  rfl

theorem move_a_over_b_invalid {w : List (List Nat)} {oa ob : Option Nat} {st : BlockState}
    (h : (Blocks.mk st w oa ob).parameters_invalid = true) :
    ((Blocks.mk st w oa ob).move_a_over_b).world = w := by
  unfold Blocks.move_a_over_b
  rw [if_pos h]
  rfl

theorem pile_a_onto_b_invalid {w : List (List Nat)} {oa ob : Option Nat} {st : BlockState}
    (h : (Blocks.mk st w oa ob).parameters_invalid = true) :
    ((Blocks.mk st w oa ob).pile_a_onto_b).world = w := by
  unfold Blocks.pile_a_onto_b
  rw [if_pos h]
  rfl

theorem pile_a_over_b_invalid {w : List (List Nat)} {oa ob : Option Nat} {st : BlockState}
    (h : (Blocks.mk st w oa ob).parameters_invalid = true) :
    ((Blocks.mk st w oa ob).pile_a_over_b).world = w := by
  unfold Blocks.pile_a_over_b
  rw [if_pos h]
  rfl

/-- C4: invalid parameters make the instruction a silent no-op. For any
`Blocks` state and any of the four `Do` instructions whose operands fail
`parameters_invalid` (equal operands, negative after the `u32 as i32`
wrap, out of range, or co-stacked), dispatching leaves the world exactly
unchanged. -/
theorem claim4_invalid_noop (s : Blocks) (v p : CommandState) (a b : Int) (msg : String)
    (hv : v = CommandState.Move ∨ v = CommandState.Pile)
    (hp : p = CommandState.Onto ∨ p = CommandState.Over)
    (hval : (Blocks.mk BlockState.Move s.world
      (some (intAsU32 a)) (some (intAsU32 b))).parameters_invalid = true) :
    (Robot.dispatch s (Command.mk msg CommandState.Do v p a b)).world = s.world := by
  rcases s with ⟨sst, w, sa, sb⟩
  simp only at hval
  rcases hv with rfl | rfl <;> rcases hp with rfl | rfl <;> cases sst <;>
    first
    | rfl
    | exact move_a_onto_b_invalid hval
    | exact move_a_over_b_invalid hval
    | exact pile_a_onto_b_invalid hval
    | exact pile_a_over_b_invalid hval

/-- C4 witness: with `N = 10`, `move 99 onto 1` (out-of-range source)
leaves the world unchanged. -/
theorem claim4_invalid_noop_witness :
    (Robot.dispatch (Robot.new 10)
      (Command.mk "" CommandState.Do CommandState.Move CommandState.Onto 99 1)).world =
      (Robot.new 10).world :=
  claim4_invalid_noop (Robot.new 10) CommandState.Move CommandState.Onto 99 1 ""
    (Or.inl rfl) (Or.inl rfl) (by decide)

/-- C1: semantics of a validated `move A onto B` from any reachable
state. With `A` at position `j` of stack `i` (prefix `pa`, blocks above
`qa`) and `B` in stack `k` (prefix `pb`, blocks above `qb`): every block
above `A` ends alone on its own identically-indexed stack, `A` leaves
stack `i`, every block above `B` ends alone on its own stack, and `A`
ends directly on top of `B`; every other stack is untouched. -/
theorem claim1_move_onto (n : Nat) (s : Blocks) (hR : Reach n s)
    (A B : Nat) (hA32 : A < 2 ^ 32) (hB32 : B < 2 ^ 32)
    (hval : (Blocks.mk BlockState.Move s.world
      (some A) (some B)).parameters_invalid = false)
    (i k : Nat) (pa qa pb qb : List Nat)
    (hik : i ≠ k) (hi : i < n) (hk : k < n)
    (hsa : s.world.getD i [] = pa ++ A :: qa)
    (hsb : s.world.getD k [] = pb ++ B :: qb) :
    (Robot.dispatch s (Command.mk "" CommandState.Do CommandState.Move CommandState.Onto
      (A : Int) (B : Int))).world.getD i [] = pa ∧
    (Robot.dispatch s (Command.mk "" CommandState.Do CommandState.Move CommandState.Onto
      (A : Int) (B : Int))).world.getD k [] = pb ++ [B, A] ∧
    (∀ x ∈ qa, (Robot.dispatch s (Command.mk "" CommandState.Do CommandState.Move
      CommandState.Onto (A : Int) (B : Int))).world.getD x [] = [x]) ∧
    (∀ x ∈ qb, (Robot.dispatch s (Command.mk "" CommandState.Do CommandState.Move
      CommandState.Onto (A : Int) (B : Int))).world.getD x [] = [x]) ∧
    (∀ t, t < n → t ≠ i → t ≠ k → t ∉ qa → t ∉ qb →
      (Robot.dispatch s (Command.mk "" CommandState.Do CommandState.Move CommandState.Onto
        (A : Int) (B : Int))).world.getD t [] = s.world.getD t []) := by
  obtain ⟨hst, ha, hb, hWF⟩ := reach_inv hR
  rcases s with ⟨sst, w, sa, sb⟩
  simp only at hst ha hb hWF hval hsa hsb ⊢
  subst hst
  subst ha
  subst hb
  have hAx : intAsU32 (A : Int) = A := intAsU32_ofNat hA32
  have hBx : intAsU32 (B : Int) = B := intAsU32_ofNat hB32
  have hd : Robot.dispatch (Blocks.mk BlockState.Init w none none)
      (Command.mk "" CommandState.Do CommandState.Move CommandState.Onto
        (A : Int) (B : Int)) =
      (Blocks.mk BlockState.Move w (some A) (some B)).move_a_onto_b.reset_state := by
    show ((Blocks.mk BlockState.Init w none none).move_a (intAsU32 (A : Int))).onto_b
      (intAsU32 (B : Int)) = _
    rw [hAx, hBx]
    rfl
  rw [hd]
  obtain ⟨hA31, hB31, _⟩ :=
    (parameters_invalid_false_iff
      (s := Blocks.mk BlockState.Move w (some A) (some B)) rfl rfl hA32 hB32).mp hval
  have hspec := move_a_onto_b_spec
    (s := Blocks.mk BlockState.Move w (some A) (some B))
    hWF rfl rfl hA31 hB31 hik hi hk hsa hsb
  exact ⟨hspec.2.1, hspec.2.2.1, hspec.2.2.2.1, hspec.2.2.2.2.1,
    fun t _ hti htk hqa hqb => hspec.2.2.2.2.2.1 t hti htk hqa hqb⟩

/-- C1 witness: from stack 2 = `[2, 1]` (reached by `move 1 onto 2` in
a 3-block world), `move 2 onto 0` yields stack 0 = `[0, 2]`,
stack 1 = `[1]`, stack 2 = `[]`. -/
theorem claim1_move_onto_witness :
    (Robot.dispatch (Robot.dispatch (Robot.new 3) (Command.parse "move 1 onto 2"))
      (Command.mk "" CommandState.Do CommandState.Move CommandState.Onto 2 0)).world.getD 0 []
      = [0, 2] ∧
    (Robot.dispatch (Robot.dispatch (Robot.new 3) (Command.parse "move 1 onto 2"))
      (Command.mk "" CommandState.Do CommandState.Move CommandState.Onto 2 0)).world.getD 1 []
      = [1] ∧
    (Robot.dispatch (Robot.dispatch (Robot.new 3) (Command.parse "move 1 onto 2"))
      (Command.mk "" CommandState.Do CommandState.Move CommandState.Onto 2 0)).world.getD 2 []
      = [] :=
  ⟨(claim1_move_onto 3 _
      (Reach.step (Robot.new 3) (Command.parse "move 1 onto 2")
        (Reach.init (Robot.new 3) rfl))
      2 0 (by decide) (by decide) (by decide) 2 0 [] [1] [] []
      (by decide) (by decide) (by decide) (by decide) (by decide)).2.1,
   (claim1_move_onto 3 _
      (Reach.step (Robot.new 3) (Command.parse "move 1 onto 2")
        (Reach.init (Robot.new 3) rfl))
      2 0 (by decide) (by decide) (by decide) 2 0 [] [1] [] []
      (by decide) (by decide) (by decide) (by decide) (by decide)).2.2.1 1 (by decide),
   (claim1_move_onto 3 _
      (Reach.step (Robot.new 3) (Command.parse "move 1 onto 2")
        (Reach.init (Robot.new 3) rfl))
      2 0 (by decide) (by decide) (by decide) 2 0 [] [1] [] []
      (by decide) (by decide) (by decide) (by decide) (by decide)).1⟩

/-- C2: semantics of a validated `pile A onto B` from any reachable
state. Every block above `B` is returned alone to its own stack, the
contiguous pile from `A` to the top of stack `i` is removed and appended
in the same bottom-to-top order on top of `B`, and every other stack is
untouched. -/
theorem claim2_pile_onto (n : Nat) (s : Blocks) (hR : Reach n s)
    (A B : Nat) (hA32 : A < 2 ^ 32) (hB32 : B < 2 ^ 32)
    (hval : (Blocks.mk BlockState.Pile s.world
      (some A) (some B)).parameters_invalid = false)
    (i k : Nat) (pa qa pb qb : List Nat)
    (hik : i ≠ k) (hi : i < n) (hk : k < n)
    (hsa : s.world.getD i [] = pa ++ A :: qa)
    (hsb : s.world.getD k [] = pb ++ B :: qb) :
    (Robot.dispatch s (Command.mk "" CommandState.Do CommandState.Pile CommandState.Onto
      (A : Int) (B : Int))).world.getD i [] = pa ∧
    (Robot.dispatch s (Command.mk "" CommandState.Do CommandState.Pile CommandState.Onto
      (A : Int) (B : Int))).world.getD k [] = (pb ++ [B]) ++ A :: qa ∧
    (∀ x ∈ qb, (Robot.dispatch s (Command.mk "" CommandState.Do CommandState.Pile
      CommandState.Onto (A : Int) (B : Int))).world.getD x [] = [x]) ∧
    (∀ t, t < n → t ≠ i → t ≠ k → t ∉ qb →
      (Robot.dispatch s (Command.mk "" CommandState.Do CommandState.Pile CommandState.Onto
        (A : Int) (B : Int))).world.getD t [] = s.world.getD t []) := by
  obtain ⟨hst, ha, hb, hWF⟩ := reach_inv hR
  rcases s with ⟨sst, w, sa, sb⟩
  simp only at hst ha hb hWF hval hsa hsb ⊢
  subst hst
  subst ha
  subst hb
  have hAx : intAsU32 (A : Int) = A := intAsU32_ofNat hA32
  have hBx : intAsU32 (B : Int) = B := intAsU32_ofNat hB32
  have hd : Robot.dispatch (Blocks.mk BlockState.Init w none none)
      (Command.mk "" CommandState.Do CommandState.Pile CommandState.Onto
        (A : Int) (B : Int)) =
      (Blocks.mk BlockState.Pile w (some A) (some B)).pile_a_onto_b.reset_state := by
    show ((Blocks.mk BlockState.Init w none none).pile_a (intAsU32 (A : Int))).onto_b
      (intAsU32 (B : Int)) = _
    rw [hAx, hBx]
    rfl
  rw [hd]
  obtain ⟨hA31, hB31, _⟩ :=
    (parameters_invalid_false_iff
      (s := Blocks.mk BlockState.Pile w (some A) (some B)) rfl rfl hA32 hB32).mp hval
  have hspec := pile_a_onto_b_spec
    (s := Blocks.mk BlockState.Pile w (some A) (some B))
    hWF rfl rfl hA31 hB31 hik hi hk hsa hsb
  exact ⟨hspec.2.1, hspec.2.2.1, hspec.2.2.2.1,
    fun t _ hti htk hqb => hspec.2.2.2.2.1 t hti htk hqb⟩

/-- C2 witness: with `N = 10`, from stack 3 = `[3, 4, 5]` and
stack 1 = `[1]`, `pile 3 onto 1` yields stack 1 = `[1, 3, 4, 5]` and
stack 3 = `[]`. -/
theorem claim2_pile_onto_witness :
    (Robot.dispatch
      (Robot.dispatch (Robot.dispatch (Robot.new 10) (Command.parse "move 4 onto 3"))
        (Command.parse "move 5 onto 4"))
      (Command.mk "" CommandState.Do CommandState.Pile CommandState.Onto 3 1)).world.getD 1 []
      = [1, 3, 4, 5] ∧
    (Robot.dispatch
      (Robot.dispatch (Robot.dispatch (Robot.new 10) (Command.parse "move 4 onto 3"))
        (Command.parse "move 5 onto 4"))
      (Command.mk "" CommandState.Do CommandState.Pile CommandState.Onto 3 1)).world.getD 3 []
      = [] :=
  ⟨(claim2_pile_onto 10 _
      (Reach.step _ (Command.parse "move 5 onto 4")
        (Reach.step (Robot.new 10) (Command.parse "move 4 onto 3")
          (Reach.init (Robot.new 10) rfl)))
      3 1 (by decide) (by decide) (by decide) 3 1 [] [4, 5] [] []
      (by decide) (by decide) (by decide) (by decide) (by decide)).2.1,
   (claim2_pile_onto 10 _
      (Reach.step _ (Command.parse "move 5 onto 4")
        (Reach.step (Robot.new 10) (Command.parse "move 4 onto 3")
          (Reach.init (Robot.new 10) rfl)))
      3 1 (by decide) (by decide) (by decide) 3 1 [] [4, 5] [] []
      (by decide) (by decide) (by decide) (by decide) (by decide)).1⟩

/-- C5: validation symmetry. From any reachable state, each of the four
operations `move onto`, `move over`, `pile onto`, `pile over` leaves the
world unchanged exactly when the one shared predicate
`parameters_invalid` holds on `(a, b, world)` — the predicate does not
depend on the verb or the preposition. -/
theorem claim5_validation_symmetry (n : Nat) (s : Blocks) (hR : Reach n s)
    (a b : Int) (msg : String) :
    (((Robot.dispatch s (Command.mk msg CommandState.Do CommandState.Move CommandState.Onto
        a b)).world = s.world) ↔
      (Blocks.mk BlockState.Move s.world (some (intAsU32 a))
        (some (intAsU32 b))).parameters_invalid = true) ∧
    (((Robot.dispatch s (Command.mk msg CommandState.Do CommandState.Move CommandState.Over
        a b)).world = s.world) ↔
      (Blocks.mk BlockState.Move s.world (some (intAsU32 a))
        (some (intAsU32 b))).parameters_invalid = true) ∧
    (((Robot.dispatch s (Command.mk msg CommandState.Do CommandState.Pile CommandState.Onto
        a b)).world = s.world) ↔
      (Blocks.mk BlockState.Move s.world (some (intAsU32 a))
        (some (intAsU32 b))).parameters_invalid = true) ∧
    (((Robot.dispatch s (Command.mk msg CommandState.Do CommandState.Pile CommandState.Over
        a b)).world = s.world) ↔
      (Blocks.mk BlockState.Move s.world (some (intAsU32 a))
        (some (intAsU32 b))).parameters_invalid = true) := by
  obtain ⟨hst, ha, hb, hWF⟩ := reach_inv hR
  rcases s with ⟨sst, w, sa, sb⟩
  simp only at hst ha hb hWF ⊢
  subst hst
  subst ha
  subst hb
  refine ⟨?_, ?_, ?_, ?_⟩
  · cases hpv : (Blocks.mk BlockState.Move w (some (intAsU32 a))
        (some (intAsU32 b))).parameters_invalid with
    | true => exact iff_of_true (move_a_onto_b_invalid hpv) rfl
    | false =>
      refine iff_of_false ?_ (by simp)
      intro heq
      obtain ⟨hA31, hB31, i, k, pa, qa, pb, qb, hik, hi, hk, hpa, hpb⟩ :=
        valid_elim (s := Blocks.mk BlockState.Move w (some (intAsU32 a))
          (some (intAsU32 b))) hWF rfl rfl (intAsU32_lt a) (intAsU32_lt b) hpv
      have hspec := move_a_onto_b_spec
        (s := Blocks.mk BlockState.Move w (some (intAsU32 a)) (some (intAsU32 b)))
        hWF rfl rfl hA31 hB31 hik hi hk hpa hpb
      have h1 : (Robot.dispatch (Blocks.mk BlockState.Init w none none)
          (Command.mk msg CommandState.Do CommandState.Move CommandState.Onto
            a b)).world.getD i [] = pa := hspec.2.1
      rw [heq, hpa] at h1
      have h2 := congrArg List.length h1
      simp only [List.length_append, List.length_cons] at h2
      omega
  · cases hpv : (Blocks.mk BlockState.Move w (some (intAsU32 a))
        (some (intAsU32 b))).parameters_invalid with
    | true => exact iff_of_true (move_a_over_b_invalid hpv) rfl
    | false =>
      refine iff_of_false ?_ (by simp)
      intro heq
      obtain ⟨hA31, hB31, i, k, pa, qa, pb, qb, hik, hi, hk, hpa, hpb⟩ :=
        valid_elim (s := Blocks.mk BlockState.Move w (some (intAsU32 a))
          (some (intAsU32 b))) hWF rfl rfl (intAsU32_lt a) (intAsU32_lt b) hpv
      have hspec := move_a_over_b_spec
        (s := Blocks.mk BlockState.Move w (some (intAsU32 a)) (some (intAsU32 b)))
        hWF rfl rfl hA31 hB31 hik hi hk hpa hpb
      have h1 : (Robot.dispatch (Blocks.mk BlockState.Init w none none)
          (Command.mk msg CommandState.Do CommandState.Move CommandState.Over
            a b)).world.getD i [] = pa := hspec.2.1
      rw [heq, hpa] at h1
      have h2 := congrArg List.length h1
      simp only [List.length_append, List.length_cons] at h2
      omega
  · cases hpv : (Blocks.mk BlockState.Move w (some (intAsU32 a))
        (some (intAsU32 b))).parameters_invalid with
    | true => exact iff_of_true (pile_a_onto_b_invalid hpv) rfl
    | false =>
      refine iff_of_false ?_ (by simp)
      intro heq
      obtain ⟨hA31, hB31, i, k, pa, qa, pb, qb, hik, hi, hk, hpa, hpb⟩ :=
        valid_elim (s := Blocks.mk BlockState.Pile w (some (intAsU32 a))
          (some (intAsU32 b))) hWF rfl rfl (intAsU32_lt a) (intAsU32_lt b) hpv
      have hspec := pile_a_onto_b_spec
        (s := Blocks.mk BlockState.Pile w (some (intAsU32 a)) (some (intAsU32 b)))
        hWF rfl rfl hA31 hB31 hik hi hk hpa hpb
      have h1 : (Robot.dispatch (Blocks.mk BlockState.Init w none none)
          (Command.mk msg CommandState.Do CommandState.Pile CommandState.Onto
            a b)).world.getD i [] = pa := hspec.2.1
      rw [heq, hpa] at h1
      have h2 := congrArg List.length h1
      simp only [List.length_append, List.length_cons] at h2
      omega
  · cases hpv : (Blocks.mk BlockState.Move w (some (intAsU32 a))
        (some (intAsU32 b))).parameters_invalid with
    | true => exact iff_of_true (pile_a_over_b_invalid hpv) rfl
    | false =>
      refine iff_of_false ?_ (by simp)
      intro heq
      obtain ⟨hA31, hB31, i, k, pa, qa, pb, qb, hik, hi, hk, hpa, hpb⟩ :=
        valid_elim (s := Blocks.mk BlockState.Pile w (some (intAsU32 a))
          (some (intAsU32 b))) hWF rfl rfl (intAsU32_lt a) (intAsU32_lt b) hpv
      have hspec := pile_a_over_b_spec
        (s := Blocks.mk BlockState.Pile w (some (intAsU32 a)) (some (intAsU32 b)))
        hWF rfl rfl hA31 hB31 hik hi hk hpa hpb
      have h1 : (Robot.dispatch (Blocks.mk BlockState.Init w none none)
          (Command.mk msg CommandState.Do CommandState.Pile CommandState.Over
            a b)).world.getD i [] = pa := hspec.2.1
      rw [heq, hpa] at h1
      have h2 := congrArg List.length h1
      simp only [List.length_append, List.length_cons] at h2
      omega

/-- C5 witness: `move 0 onto 0` (equal operands) is rejected, so the
world is unchanged in a concrete 3-block state. -/
theorem claim5_validation_symmetry_witness :
    (Robot.dispatch (Robot.new 3)
      (Command.mk "" CommandState.Do CommandState.Move CommandState.Onto 0 0)).world =
      (Robot.new 3).world :=
  ((claim5_validation_symmetry 3 (Robot.new 3) (Reach.init (Robot.new 3) rfl)
    0 0 "").1).mpr (by decide)

/-! ## Parser claims -/

/-- C6 (amended): the parser's ordered rejection rules with the
messages the source actually produces. For any input that does not
normalise to `quit`/`q`/`print`/`p`: a token count other than 4 is
rejected first with `Error! Expected 4 input parameters, got <n>`; then
a first token other than `move`/`pile` with
`` Error! `<verb>` is not a valid command. ``; then a third token other
than `onto`/`over` with `` Error! `<prep>` is not a valid command. ``;
then a non-`u32` second token with
`` Error! `<token>` is not a valid positive integer. `` (leaving both
operands `-1`, so the fourth token is never evaluated); and only then
the fourth token, with the same message shape and the second token's
value already stored in `a`. -/
theorem claim6_parse_order (input : String) (inp : List Char) (parts : List (List Char))
    (hinp : inp = toLowerChars (trimChars input.data))
    (hparts : parts = splitWhitespace inp)
    (hq1 : inp ≠ "quit".data) (hq2 : inp ≠ "q".data)
    (hp1 : inp ≠ "print".data) (hp2 : inp ≠ "p".data) :
    (parts.length ≠ 4 → Command.parse input = Command.mk
      ("Error! Expected 4 input parameters, got " ++ toString parts.length)
      CommandState.Error CommandState.Init CommandState.Init (-1) (-1)) ∧
    (parts.length = 4 → parts.getD 0 [] ≠ "move".data → parts.getD 0 [] ≠ "pile".data →
      Command.parse input = Command.mk
        ("Error! `" ++ String.mk (parts.getD 0 []) ++ "` is not a valid command.")
        CommandState.Error CommandState.Init CommandState.Init (-1) (-1)) ∧
    (parts.length = 4 → (parts.getD 0 [] = "move".data ∨ parts.getD 0 [] = "pile".data) →
      parts.getD 2 [] ≠ "over".data → parts.getD 2 [] ≠ "onto".data →
      Command.parse input = Command.mk
        ("Error! `" ++ String.mk (parts.getD 2 []) ++ "` is not a valid command.")
        CommandState.Error CommandState.Init CommandState.Init (-1) (-1)) ∧
    (parts.length = 4 → (parts.getD 0 [] = "move".data ∨ parts.getD 0 [] = "pile".data) →
      (parts.getD 2 [] = "over".data ∨ parts.getD 2 [] = "onto".data) →
      parseU32 (parts.getD 1 []) = none →
      Command.parse input = Command.mk
        ("Error! `" ++ String.mk (parts.getD 1 []) ++ "` is not a valid positive integer.")
        CommandState.Error CommandState.Init CommandState.Init (-1) (-1)) ∧
    (parts.length = 4 → (parts.getD 0 [] = "move".data ∨ parts.getD 0 [] = "pile".data) →
      (parts.getD 2 [] = "over".data ∨ parts.getD 2 [] = "onto".data) →
      ∀ na : Nat, parseU32 (parts.getD 1 []) = some na →
      parseU32 (parts.getD 3 []) = none →
      Command.parse input = Command.mk
        ("Error! `" ++ String.mk (parts.getD 3 []) ++ "` is not a valid positive integer.")
        CommandState.Error CommandState.Init CommandState.Init (na : Int) (-1)) := by
  subst hinp
  subst hparts
  unfold Command.parse
  simp only []
  rw [if_neg (not_or.mpr ⟨hq1, hq2⟩), if_neg (not_or.mpr ⟨hp1, hp2⟩)]
  refine ⟨?_, ?_, ?_, ?_, ?_⟩
  · intro hlen
    rw [if_pos hlen]
  · intro hlen hm hp
    rw [if_neg (fun h => h hlen), if_pos ⟨hm, hp⟩]
  · intro hlen hverb hov hon
    rw [if_neg (fun h => h hlen)]
    rw [if_neg (fun h => by rcases hverb with hv | hv; exact h.1 hv; exact h.2 hv)]
    rw [if_pos ⟨hov, hon⟩]
  · intro hlen hverb hprep hnone
    rw [if_neg (fun h => h hlen)]
    rw [if_neg (fun h => by rcases hverb with hv | hv; exact h.1 hv; exact h.2 hv)]
    rw [if_neg (fun h => by rcases hprep with hp | hp; exact h.1 hp; exact h.2 hp)]
    rw [hnone]
  · intro hlen hverb hprep na hsome hnone
    rw [if_neg (fun h => h hlen)]
    rw [if_neg (fun h => by rcases hverb with hv | hv; exact h.1 hv; exact h.2 hv)]
    rw [if_neg (fun h => by rcases hprep with hp | hp; exact h.1 hp; exact h.2 hp)]
    rw [hsome, hnone]

/-- C6 counterexample to the claim as stated: the parser's token-count
message is the source's `Error! Expected 4 input parameters, got 2`, not
the claimed `expected 4 parameters, got 2`. -/
theorem claim6_parse_order_cex :
    Command.parse "move 1" = Command.mk "Error! Expected 4 input parameters, got 2"
      CommandState.Error CommandState.Init CommandState.Init (-1) (-1) ∧
    "Error! Expected 4 input parameters, got 2" ≠ "expected 4 parameters, got 2" := by
  constructor
  · decide
  · decide

/-- C6 witness: a bad verb on a 4-token line is rejected with the verb
message (count rule already passed). -/
theorem claim6_parse_order_witness :
    Command.parse "foo 1 onto 2" = Command.mk "Error! `foo` is not a valid command."
      CommandState.Error CommandState.Init CommandState.Init (-1) (-1) :=
  (claim6_parse_order "foo 1 onto 2" _ _ rfl rfl (by decide) (by decide) (by decide)
    (by decide)).2.1 (by decide) (by decide) (by decide)

/-- C7: parser totality. `Command::parse` is a total function whose
result state is always one of `Quit`, `Print`, `Error` or `Do` (never
the intermediate states), and in the `Error` state it always carries a
nonempty message. -/
theorem claim7_parse_total (input : String) :
    ((Command.parse input).state = CommandState.Quit ∨
     (Command.parse input).state = CommandState.Print ∨
     (Command.parse input).state = CommandState.Error ∨
     (Command.parse input).state = CommandState.Do) ∧
    ((Command.parse input).state = CommandState.Error →
      (Command.parse input).error_msg ≠ "") := by
  have hne : ∀ (s t : String), s.data ≠ [] → s ++ t ≠ "" := by
    intro s t hs he
    have h1 : (s ++ t).data = s.data ++ t.data := rfl
    rw [he] at h1
    have h2 : s.data ++ t.data = [] := h1.symm
    rcases List.append_eq_nil.mp h2 with ⟨h3, _⟩
    exact hs h3
  have hdata : ∀ (s t : String), s.data ≠ [] → (s ++ t).data ≠ [] := by
    intro s t hs he
    have h2 : s.data ++ t.data = [] := he
    rcases List.append_eq_nil.mp h2 with ⟨h3, _⟩
    exact hs h3
  unfold Command.parse
  simp only []
  split
  · exact ⟨Or.inl rfl, fun h => by cases h⟩
  · split
    · exact ⟨Or.inr (Or.inl rfl), fun h => by cases h⟩
    · split
      · exact ⟨Or.inr (Or.inr (Or.inl rfl)),
          fun _ => hne "Error! Expected 4 input parameters, got " _ (by decide)⟩
      · split
        · exact ⟨Or.inr (Or.inr (Or.inl rfl)),
            fun _ => hne _ "` is not a valid command." (hdata "Error! `" _ (by decide))⟩
        · split
          · exact ⟨Or.inr (Or.inr (Or.inl rfl)),
              fun _ => hne _ "` is not a valid command." (hdata "Error! `" _ (by decide))⟩
          · split
            · exact ⟨Or.inr (Or.inr (Or.inl rfl)),
                fun _ => hne _ "` is not a valid positive integer."
                  (hdata "Error! `" _ (by decide))⟩
            · split
              · exact ⟨Or.inr (Or.inr (Or.inl rfl)),
                  fun _ => hne _ "` is not a valid positive integer."
                    (hdata "Error! `" _ (by decide))⟩
              · exact ⟨Or.inr (Or.inr (Or.inr rfl)), fun h => by cases h⟩

/-- C7 witness: a malformed input lands in the `Error` state with a
nonempty message. -/
theorem claim7_parse_total_witness :
    ((Command.parse "xyz").state = CommandState.Quit ∨
     (Command.parse "xyz").state = CommandState.Print ∨
     (Command.parse "xyz").state = CommandState.Error ∨
     (Command.parse "xyz").state = CommandState.Do) ∧
    (Command.parse "xyz").error_msg ≠ "" :=
  ⟨(claim7_parse_total "xyz").1, (claim7_parse_total "xyz").2 (by decide)⟩
